import Mathlib

/-!
Shallow embedding of the mesh-generation/decomposition subsystem of PENNANT
(`src/GenerateMesh.cc`), together with proofs of the specification's claims
about it.

Conventions of the embedding:
* C++ `int` indices, sizes and counts are embedded as `ℕ` where the source
  keeps them non-negative, and as `ℤ` where the source can produce negative
  intermediate values (zone vertex ids in the pie/hex generators, global ids).
* `std::vector<int>` outputs built by `push_back` are embedded as Lean lists,
  in push order.
* `std::vector<int>` buffers written through `operator[]` (the permutation
  arrays) are embedded as functions `ℕ → ℕ` built by a fold of pointwise
  updates over the sequence of writes the source performs, starting from the
  zero-initialized state of `std::vector<int> v(n)`.
* Floating-point coordinate values are outside the scope of the structural
  claims; point positions are embedded only where a claim needs them, as a
  symbolic constructor recording exactly which expression the source pushes.
-/

namespace PennantGen

/-- Apply a list of `(index, value)` writes to a function, later writes
overriding earlier ones; embeds a loop of `v[index] = value` statements on a
zero-initialized `std::vector<int>`. -/
def applyWrites (writes : List (ℕ × ℕ)) : ℕ → ℕ :=
  writes.foldl (fun f w => Function.update f w.1 w.2) (fun _ => 0)

/-- Row-major linearization `y * num_pts_x + x` (the `linearize` lambda in
`GenerateMesh::muPermutation`). -/
def linearize (num_pts_x x y : ℕ) : ℕ := y * num_pts_x + x

/-- The cells of one block visited by `GenerateMesh::muPermutation`, in visit
order: left edge (leftmost blocks only), top edge (topmost blocks only),
right edge, bottom edge, then the interior. `bi`, `bj` are the block column
and row (`block_x`, `block_y` in the source), `wx`, `wy` the block widths. -/
def muBlockVisit (wx wy bi bj : ℕ) : List (ℕ × ℕ) :=
  (if bi = 0 then (List.range wy).map (fun dy => (0, wy * bj + (dy + 1))) else [])
  ++ (if bj = 0 then (List.range wx).map (fun dx => (bi * wx + 1 + dx, 0)) else [])
  ++ (List.range wy).map (fun dy => (wx * (bi + 1), wy * bj + 1 + dy))
  ++ (List.range (wx - 1)).map (fun dx => (wx * bi + 1 + dx, wy * (bj + 1)))
  ++ (List.range (wy - 1)).flatMap
      (fun dy => (List.range (wx - 1)).map (fun dx => (wx * bi + (dx + 1), wy * bj + (dy + 1))))

/-- The full cell-visit order of `GenerateMesh::muPermutation`: cell `(0,0)`
first, then the blocks in row-major order. The `k`-th cell of this list is
the cell whose `perm` entry the source sets to `k` (`perm[linearize(x,y)] =
cnt++`). -/
def muVisit (wx wy nbx nby : ℕ) : List (ℕ × ℕ) :=
  (0, 0) :: (List.range nby).flatMap (fun bj => (List.range nbx).flatMap (fun bi => muBlockVisit wx wy bi bj))

/-- Mirrors `GenerateMesh::muPermutation(num_pts_x, num_pts_y, num_blocks_x,
num_blocks_y)` as a function from raster point index to mu index: the result
of all the `perm[linearize(x, y)] = cnt++` writes on the zero-initialized
vector, with block widths `width_x = (num_pts_x - 1) / num_blocks_x` and
`width_y = (num_pts_y - 1) / num_blocks_y`. -/
def muPermutation (num_pts_x num_pts_y num_blocks_x num_blocks_y : ℕ) : ℕ → ℕ :=
  let width_x := (num_pts_x - 1) / num_blocks_x
  let width_y := (num_pts_y - 1) / num_blocks_y
  let visit := muVisit width_x width_y num_blocks_x num_blocks_y
  applyWrites ((visit.map (fun c => linearize num_pts_x c.1 c.2)).zip (List.range visit.length))

/-- The linearized visit order of `muPermutation`: the `k`-th entry is the
raster index whose permutation value the source sets to `k`. -/
def muLin (wx wy nbx nby : ℕ) : List ℕ :=
  (muVisit wx wy nbx nby).map (fun p => linearize (wx * nbx + 1) p.1 p.2)

/-- The configuration a `GenerateMesh` instance is built from, together with
the processor-grid shape `num_proc_x × num_proc_y` chosen by
`calcPartitions` (the claims fix the grid shape directly, so it is carried
as data here; `calcPartitionsCore` below embeds the planner itself). -/
structure GenConfig where
  global_nzones_x : ℕ
  global_nzones_y : ℕ
  num_subregions : ℕ
  num_proc_x : ℕ
  num_proc_y : ℕ
  my_color : ℕ
deriving DecidableEq, Repr

/-- Mirrors `proc_index_x = my_color % num_proc_x` (from `calcLocalConstants`). -/
def proc_index_x (c : GenConfig) : ℕ := c.my_color % c.num_proc_x

/-- Mirrors `proc_index_y = my_color / num_proc_x` (from `calcLocalConstants`). -/
def proc_index_y (c : GenConfig) : ℕ := c.my_color / c.num_proc_x

/-- Mirrors `zone_x_offset = proc_index_x * global_nzones_x / num_proc_x`. -/
def zone_x_offset (c : GenConfig) : ℕ :=
  proc_index_x c * c.global_nzones_x / c.num_proc_x

/-- Mirrors `zxstop = (proc_index_x + 1) * global_nzones_x / num_proc_x`. -/
def zxstop (c : GenConfig) : ℕ :=
  (proc_index_x c + 1) * c.global_nzones_x / c.num_proc_x

/-- Mirrors `nzones_x = zxstop - zone_x_offset`. -/
def nzones_x (c : GenConfig) : ℕ := zxstop c - zone_x_offset c

/-- Mirrors `zone_y_offset = proc_index_y * global_nzones_y / num_proc_y`. -/
def zone_y_offset (c : GenConfig) : ℕ :=
  proc_index_y c * c.global_nzones_y / c.num_proc_y

/-- Mirrors `zystop = (proc_index_y + 1) * global_nzones_y / num_proc_y`. -/
def zystop (c : GenConfig) : ℕ :=
  (proc_index_y c + 1) * c.global_nzones_y / c.num_proc_y

/-- Mirrors `nzones_y = zystop - zone_y_offset`. -/
def nzones_y (c : GenConfig) : ℕ := zystop c - zone_y_offset c

/-- Mirrors `num_zones = nzones_x * nzones_y`. -/
def num_zones (c : GenConfig) : ℕ := nzones_x c * nzones_y c

/-- Mirrors `num_points_x = nzones_x + 1`. -/
def num_points_x (c : GenConfig) : ℕ := nzones_x c + 1

/-- Mirrors `num_points_y = nzones_y + 1`. -/
def num_points_y (c : GenConfig) : ℕ := nzones_y c + 1

/-- The local permutation: `perm = muPermutation(num_points_x, num_points_y, 1, 1)`. -/
def perm (c : GenConfig) : ℕ → ℕ :=
  muPermutation (num_points_x c) (num_points_y c) 1 1

/-- The global permutation: `global_perm = muPermutation(global_nzones_x + 1,
global_nzones_y + 1, num_proc_x, num_proc_y)`. -/
def global_perm (c : GenConfig) : ℕ → ℕ :=
  muPermutation (c.global_nzones_x + 1) (c.global_nzones_y + 1) c.num_proc_x c.num_proc_y

/-- The stored inverse of a permutation vector of logical size `n`: the
result of the writes `deperm[perm[i]] = i` for `i = 0, ..., n-1` (from
`calcLocalConstants`). -/
def buildDeperm (p : ℕ → ℕ) (n : ℕ) : ℕ → ℕ :=
  applyWrites ((List.range n).map (fun i => (p i, i)))

/-- Mirrors `deperm`, the stored inverse of the local permutation. -/
def deperm (c : GenConfig) : ℕ → ℕ :=
  buildDeperm (perm c) (num_points_x c * num_points_y c)

/-- Mirrors `global_deperm`, the stored inverse of the global permutation. -/
def global_deperm (c : GenConfig) : ℕ → ℕ :=
  buildDeperm (global_perm c) ((c.global_nzones_x + 1) * (c.global_nzones_y + 1))

/-! ### Partition planner (`GenerateMesh::calcPartitions`)

The planner computes a floating-point ideal split
`n = sqrt(num_subregions * nx / ny)` and derives the two integer candidates
`n1 = max(floor(n + 1e-12), 1)` and `n2 = ceil(n - 1e-12)`; only the two
divisor-search loops and the final selection are integer computations.  The
embedding therefore takes the two pre-search candidates `g1`, `g2` as
parameters and performs the integer part exactly, with the long-side
comparison done in exact rational arithmetic in place of `double`s. -/

/-- The first divisor search: `while (num_subregions % n1 != 0) --n1;`,
started from `g`.  Structural recursion on `g` mirrors the decrement loop;
the `g = 0` case is never reached from a start value `≥ 1` because `P % 1 == 0`. -/
def findDivisorDown (P : ℕ) : ℕ → ℕ
  | 0 => 0
  | g + 1 => if P % (g + 1) = 0 then g + 1 else findDivisorDown P g

/-- The second divisor search: `while (num_subregions % n2 != 0) ++n2;`,
started from `g`, with explicit fuel bounding the number of increments;
`none` means the fuel ran out (the loop did not terminate within `fuel`
iterations). -/
def findDivisorUp (P : ℕ) : ℕ → ℕ → Option ℕ
  | _, 0 => none
  | g, fuel + 1 => if P % g = 0 then some g else findDivisorUp P (g + 1) fuel

/-- The integer core of `GenerateMesh::calcPartitions`: `nx`/`ny` are the
global zone counts, `P = num_subregions`, and `g1`, `g2` are the values of
`floor(n + 1e-12)` and `ceil(n - 1e-12)` computed from the floating-point
ideal split.  Returns `(num_proc_x, num_proc_y)`, or `none` if the second
divisor search fails to terminate within its fuel.  The long sides
`max(nx / n1, ny / (P / n1))` are evaluated in `ℚ` (the inner `P / n1` is
C++ integer division, as in the source); `NPX` selects `n1` on ties. -/
def calcPartitionsCore (gnx gny P g1 g2 : ℕ) : Option (ℕ × ℕ) :=
  let swapflag : Bool := gnx > gny
  let nx := if swapflag then gny else gnx
  let ny := if swapflag then gnx else gny
  let n1 := findDivisorDown P (max g1 1)
  match findDivisorUp P g2 (P + 1) with
  | none => none
  | some n2 =>
    let longside1 : ℚ := max ((nx : ℚ) / n1) ((ny : ℚ) / (P / n1 : ℕ))
    let longside2 : ℚ := max ((nx : ℚ) / n2) ((ny : ℚ) / (P / n2 : ℕ))
    let npx := if longside1 ≤ longside2 then n1 else n2
    let npy := P / npx
    some (if swapflag then (npy, npx) else (npx, npy))

/-! ### Zone connectivity (CRS form)

Each topology generator pushes, per zone: `zonestart.push_back(zonepoints.size())`,
`zonesize.push_back(<vertex count>)`, and the zone's vertices onto
`zonepoints`.  `crsOfZones` embeds exactly this push sequence as a fold over
the per-zone vertex lists. -/

/-- One zone's worth of CRS pushes: append the current `zonepoints` length to
`zonestart`, the vertex count to `zonesize`, and the vertices to `zonepoints`. -/
def crsAppendZone (st : List ℕ × List ℕ × List ℤ) (v : List ℤ) :
    List ℕ × List ℕ × List ℤ :=
  (st.1 ++ [st.2.2.length], st.2.1 ++ [v.length], st.2.2 ++ v)

/-- The `(zonestart, zonesize, zonepoints)` triple produced by pushing the
given zones in order. -/
def crsOfZones (zones : List (List ℤ)) : List ℕ × List ℕ × List ℤ :=
  zones.foldl crsAppendZone ([], [], [])

/-- Partial sums of zone vertex counts: the value `zonestart[k]` holds after
the generators run. -/
def crsStartAt (zones : List (List ℤ)) (k : ℕ) : ℕ :=
  ((zones.take k).map List.length).sum

/-- The vertex list of rect zone `(i, j)` (from `GenerateMesh::generateRect`):
with `p0 = j * num_points_x + i`, the quad
`[perm[p0], perm[p0+1], perm[p0+num_points_x+1], perm[p0+num_points_x]]`. -/
def rectZone (c : GenConfig) (i j : ℕ) : List ℤ :=
  let p0 := j * num_points_x c + i
  [(perm c p0 : ℤ), (perm c (p0 + 1) : ℤ),
   (perm c (p0 + num_points_x c + 1) : ℤ), (perm c (p0 + num_points_x c) : ℤ)]

/-- The zones of `generateRect`, in emission order (`j` outer, `i` inner). -/
def rectZones (c : GenConfig) : List (List ℤ) :=
  (List.range (nzones_y c)).flatMap (fun j =>
    (List.range (nzones_x c)).map (fun i => rectZone c i j))

/-- The vertex list of pie zone `(i, j)` (from `GenerateMesh::generatePie`):
`p0 = j * num_points_x + i`, lowered by `num_points_x - 1` when
`proc_index_y == 0`; a pole triangle `[0, p0+num_points_x+1, p0+num_points_x]`
when `j + zone_y_offset == 0`, otherwise the quad
`[p0, p0+1, p0+num_points_x+1, p0+num_points_x]`.  `p0` can be negative in
the pole row, where it is not itself pushed; the arithmetic is done in `ℤ`. -/
def pieZone (c : GenConfig) (i j : ℕ) : List ℤ :=
  let p0 : ℤ := (j * num_points_x c + i : ℕ) -
    (if proc_index_y c = 0 then (num_points_x c : ℤ) - 1 else 0)
  if j + zone_y_offset c = 0 then
    [0, p0 + num_points_x c + 1, p0 + num_points_x c]
  else
    [p0, p0 + 1, p0 + num_points_x c + 1, p0 + num_points_x c]

/-- The zones of `generatePie`, in emission order. -/
def pieZones (c : GenConfig) : List (List ℤ) :=
  (List.range (nzones_y c)).flatMap (fun j =>
    (List.range (nzones_x c)).map (fun i => pieZone c i j))

/-- A point pushed by `generatePie`, recorded symbolically: `pole` is the
literal `(0, 0)` pushed when `j + zone_y_offset == 0`; `polar gj gi` is the
point `(r cos th, r sin th)` with `r = dr * gj` and
`th = dth * (global_nzones_x - gi)` for global indices `gj = j + zone_y_offset`,
`gi = i + zone_x_offset`. -/
inductive PiePoint
  | pole : PiePoint
  | polar (gj gi : ℕ) : PiePoint
deriving DecidableEq, Repr

/-- Mirrors `pointpos` as pushed by `generatePie`: for each `j`, one `pole` point if
`j + zone_y_offset == 0` (the row collapses, `continue`), else one `polar`
point per `i` in raster order. -/
def piePoints (c : GenConfig) : List PiePoint :=
  (List.range (num_points_y c)).flatMap (fun j =>
    if j + zone_y_offset c = 0 then [PiePoint.pole]
    else (List.range (num_points_x c)).map
      (fun i => PiePoint.polar (j + zone_y_offset c) (i + zone_x_offset c)))

/-- The number of points `generateHex` pushes at grid position `(i, j)`:
one on the global boundary and at the two special inner corners, two
otherwise (this is the branch structure of both the `pointpos` loop of
`generateHex` and the `np`-counting loop of `generateHaloPointsHex`). -/
def hexPointCount (c : GenConfig) (i j : ℕ) : ℕ :=
  let gi := i + zone_x_offset c
  let gj := j + zone_y_offset c
  if gi = 0 ∨ gi = c.global_nzones_x ∨ gj = 0 ∨ gj = c.global_nzones_y then 1
  else if i = nzones_x c ∧ j = 0 then 1
  else if i = 0 ∧ j = nzones_y c then 1
  else 2

/-- Points pushed by one row of `generateHex`. -/
def hexRowCount (c : GenConfig) (j : ℕ) : ℕ :=
  ((List.range (num_points_x c)).map (fun i => hexPointCount c i j)).sum

/-- Mirrors `pbase[j]`: the value of `pointpos.size()` when `generateHex` starts
row `j` (partial sums of the row point counts). -/
def hexPbase (c : GenConfig) (j : ℕ) : ℕ :=
  ((List.range j).map (fun jp => hexRowCount c jp)).sum

/-- Total number of points `generateHex` pushes (`np`). -/
def hexNp (c : GenConfig) : ℕ := hexPbase c (num_points_y c)

/-- The vertex list of hex zone `(i, j)` (from `GenerateMesh::generateHex`):
the 6-slot template `v[0..5]` around `pbasel`/`pbaseh` (with the
`proc_index_x > 0` adjustments), then the boundary-dependent overwrites and
`erase` calls of the source, in order. -/
def hexZone (c : GenConfig) (i j : ℕ) : List ℤ :=
  let gi := i + zone_x_offset c
  let gj := j + zone_y_offset c
  let pbasel : ℤ := (hexPbase c j : ℤ) +
    (if proc_index_x c > 0 ∧ gj > 0 then 1 else 0)
  let pbaseh : ℤ := (hexPbase c (j + 1) : ℤ) +
    (if proc_index_x c > 0 ∧ j < nzones_y c - 1 then 1 else 0)
  let v : List ℤ := [pbasel + 2 * i - 1, pbasel + 2 * i, pbasel + 2 * i + 1,
                     pbaseh + 2 * i + 2, pbaseh + 2 * i + 1, pbaseh + 2 * i]
  if gj = 0 then
    let v := v.set 0 (pbasel + i)
    let v := v.set 2 (pbasel + i + 1)
    let v := if gi = c.global_nzones_x - 1 then v.eraseIdx 3 else v
    v.eraseIdx 1
  else if gj = c.global_nzones_y - 1 then
    let v := v.set 5 (pbaseh + i)
    let v := v.set 3 (pbaseh + i + 1)
    let v := v.eraseIdx 4
    if gi = 0 then v.eraseIdx 0 else v
  else if gi = 0 then v.eraseIdx 0
  else if gi = c.global_nzones_x - 1 then v.eraseIdx 3
  else v

/-- The zones of `generateHex`, in emission order. -/
def hexZones (c : GenConfig) : List (List ℤ) :=
  (List.range (nzones_y c)).flatMap (fun j =>
    (List.range (nzones_x c)).map (fun i => hexZone c i j))

/-- The string the dispatchers compare an unrecognized mesh type against:
`string allowable_mesh_type = "!@#$&!*()@#$";`. -/
def allowable_mesh_type : String := "!@#$&!*()@#$"

/-- Whether the `assert(meshtype != allowable_mesh_type)` in the `else`
branch of `generate`/`generateHaloPoints` fires (i.e. terminates the
process): the assert fails exactly when `meshtype == allowable_mesh_type`. -/
def unknownTagAssertFires (meshtype : String) : Bool :=
  meshtype = allowable_mesh_type

/-- The zone list `generate` builds for a given mesh-type tag: the matching
topology generator's zones for the three known tags; for any other tag the
assert is a no-op unless the tag is `allowable_mesh_type` itself
(`unknownTagAssertFires`), and no zones are produced. -/
def generateZones (meshtype : String) (c : GenConfig) : List (List ℤ) :=
  if meshtype = "pie" then pieZones c
  else if meshtype = "rect" then rectZones c
  else if meshtype = "hex" then hexZones c
  else []

/-- Last element of a list of naturals, as `vector::back()` (only meaningful
on non-empty lists). -/
def lastElem (l : List ℕ) : ℕ := l.getD (l.length - 1) 0

/-- Mirrors `GenerateMesh::generate`, connectivity part: run the topology-specific
generator, then append the terminal sentinel
`zonepoints_ptr_CRS.push_back(zonepoints_ptr_CRS.back() + zonesize.back())`.
Returns `(zonestart-with-sentinel, zonesize, zonepoints)`. -/
def generateCRS (meshtype : String) (c : GenConfig) : List ℕ × List ℕ × List ℤ :=
  let st := crsOfZones (generateZones meshtype c)
  (st.1 ++ [lastElem st.1 + lastElem st.2.1], st.2.1, st.2.2)

/-! ### Halo enumerators

The six in/out vectors of `generateHaloPoints*` are embedded as a record of
lists; each relation appends a segment of point indices plus one
color/count entry (the counts are `newsize - oldsize`, i.e. the segment
lengths).  Each per-relation point segment is its own definition so claims
can speak about individual relations. -/

/-- The six output vectors of `generateHaloPoints`. -/
structure HaloOut where
  master_colors : List ℤ
  slaved_points_counts : List ℕ
  slaved_points : List ℕ
  slave_colors : List ℤ
  master_points_counts : List ℕ
  master_points : List ℕ
deriving DecidableEq, Repr

/-- Rect, slave point with master at lower left: `perm[0]`. -/
def rectSlaveCornerSeg (c : GenConfig) : List ℕ := [perm c 0]

/-- Rect, slave points with master below: `perm[p]` for `p = i`, skipping
`i == 0` when `proc_index_x != 0`. -/
def rectSlaveBelowSeg (c : GenConfig) : List ℕ :=
  (List.range (num_points_x c)).filterMap (fun i =>
    if i = 0 ∧ proc_index_x c ≠ 0 then none else some (perm c i))

/-- Rect, slave points with master to the left: `perm[p]` for
`p = j * num_points_x`, skipping `j == 0` when `proc_index_y != 0`. -/
def rectSlaveLeftSeg (c : GenConfig) : List ℕ :=
  (List.range (num_points_y c)).filterMap (fun j =>
    if j = 0 ∧ proc_index_y c ≠ 0 then none else some (perm c (j * num_points_x c)))

/-- Rect, master points with slave to the right: `perm[p]` for
`p = num_points_x - 1 + j * num_points_x`, skipping `j == 0` when
`proc_index_y != 0`. -/
def rectMasterRightSeg (c : GenConfig) : List ℕ :=
  (List.range (num_points_y c)).filterMap (fun j =>
    if j = 0 ∧ proc_index_y c ≠ 0 then none
    else some (perm c (num_points_x c - 1 + j * num_points_x c)))

/-- Rect, master points with slave above: `perm[p]` for
`p = (num_points_y - 1) * num_points_x + i`, skipping `i == 0` when
`proc_index_x > 0`. -/
def rectMasterAboveSeg (c : GenConfig) : List ℕ :=
  (List.range (num_points_x c)).filterMap (fun i =>
    if i = 0 ∧ 0 < proc_index_x c then none
    else some (perm c ((num_points_y c - 1) * num_points_x c + i)))

/-- Rect, master point with slave at upper right:
`perm[num_points_x * num_points_y - 1]`. -/
def rectMasterCornerSeg (c : GenConfig) : List ℕ :=
  [perm c (num_points_x c * num_points_y c - 1)]

/-- Mirrors `GenerateMesh::generateHaloPointsRect`, appending to the six vectors in
`o`; returns immediately when `num_subregions == 1`. -/
def generateHaloPointsRect (c : GenConfig) (o : HaloOut) : HaloOut :=
  if c.num_subregions = 1 then o else
  let o := if 0 < proc_index_x c ∧ 0 < proc_index_y c then
    { o with slaved_points := o.slaved_points ++ rectSlaveCornerSeg c,
             master_colors := o.master_colors ++ [(c.my_color : ℤ) - c.num_proc_x - 1],
             slaved_points_counts := o.slaved_points_counts ++ [1] } else o
  let o := if 0 < proc_index_y c then
    { o with slaved_points := o.slaved_points ++ rectSlaveBelowSeg c,
             master_colors := o.master_colors ++ [(c.my_color : ℤ) - c.num_proc_x],
             slaved_points_counts := o.slaved_points_counts ++ [(rectSlaveBelowSeg c).length] } else o
  let o := if 0 < proc_index_x c then
    { o with slaved_points := o.slaved_points ++ rectSlaveLeftSeg c,
             master_colors := o.master_colors ++ [(c.my_color : ℤ) - 1],
             slaved_points_counts := o.slaved_points_counts ++ [(rectSlaveLeftSeg c).length] } else o
  let o := if proc_index_x c < c.num_proc_x - 1 then
    { o with master_points := o.master_points ++ rectMasterRightSeg c,
             slave_colors := o.slave_colors ++ [(c.my_color : ℤ) + 1],
             master_points_counts := o.master_points_counts ++ [(rectMasterRightSeg c).length] } else o
  let o := if proc_index_y c < c.num_proc_y - 1 then
    { o with master_points := o.master_points ++ rectMasterAboveSeg c,
             slave_colors := o.slave_colors ++ [(c.my_color : ℤ) + c.num_proc_x],
             master_points_counts := o.master_points_counts ++ [(rectMasterAboveSeg c).length] } else o
  if proc_index_x c < c.num_proc_x - 1 ∧ proc_index_y c < c.num_proc_y - 1 then
    { o with master_points := o.master_points ++ rectMasterCornerSeg c,
             slave_colors := o.slave_colors ++ [(c.my_color : ℤ) + c.num_proc_x + 1],
             master_points_counts := o.master_points_counts ++ [1] } else o

/-- Pie, slave point with master at lower left: the literal index `0`. -/
def pieSlaveCornerSeg (_c : GenConfig) : List ℕ := [0]

/-- Pie, slave points with master below: `p = i`, skipping `i == 0` when
`proc_index_x != 0` (no permutation in the pie point storage). -/
def pieSlaveBelowSeg (c : GenConfig) : List ℕ :=
  (List.range (num_points_x c)).filterMap (fun i =>
    if i = 0 ∧ proc_index_x c ≠ 0 then none else some i)

/-- Pie, slave points with master to the left: a leading `0` when
`proc_index_y == 0` (origin special case), then `p` for `j = 1, ...,
num_points_y - 1` starting from `num_points_x` (or `1` in the pole row) and
stepping by `num_points_x`. -/
def pieSlaveLeftSeg (c : GenConfig) : List ℕ :=
  (if proc_index_y c = 0 then [0] else []) ++
  (List.range (num_points_y c - 1)).map (fun jp =>
    (if 0 < proc_index_y c then num_points_x c else 1) + jp * num_points_x c)

/-- Pie, master points with slave to the right: a leading `0` on the origin
rank, then `p` for `j = 1, ..., num_points_y - 1` starting from
`2 * num_points_x - 1` (or `num_points_x` in the pole row), stepping by
`num_points_x`. -/
def pieMasterRightSeg (c : GenConfig) : List ℕ :=
  (if proc_index_x c = 0 ∧ proc_index_y c = 0 then [0] else []) ++
  (List.range (num_points_y c - 1)).map (fun jp =>
    (if 0 < proc_index_y c then 2 * num_points_x c - 1 else num_points_x c) + jp * num_points_x c)

/-- Pie, master points with slave above: `p = (num_points_y - 1) *
num_points_x + i`, lowered by `num_points_x - 1` on pole-row ranks, skipping
`i == 0` when `proc_index_x != 0` (the start stays non-negative whenever
the enclosing branch is reachable). -/
def pieMasterAboveSeg (c : GenConfig) : List ℕ :=
  (List.range (num_points_x c)).filterMap (fun i =>
    if i = 0 ∧ proc_index_x c ≠ 0 then none
    else some ((num_points_y c - 1) * num_points_x c -
      (if proc_index_y c = 0 then num_points_x c - 1 else 0) + i))

/-- Pie, master point with slave at upper right:
`num_points_x * num_points_y - 1`, lowered by `num_points_x - 1` on
pole-row ranks. -/
def pieMasterCornerSeg (c : GenConfig) : List ℕ :=
  [num_points_x c * num_points_y c - 1 -
    (if proc_index_y c = 0 then num_points_x c - 1 else 0)]

/-- Mirrors `GenerateMesh::generateHaloPointsPie`; returns immediately when
`num_subregions == 1`.  The left-slave and right-master relations carry the
origin special cases: an extra `(color 0, count 1)` pair when the origin is
slaved with a non-adjacent master, and extra single-point master relations
from the origin rank to every pole-row rank beyond its immediate right
neighbor. -/
def generateHaloPointsPie (c : GenConfig) (o : HaloOut) : HaloOut :=
  if c.num_subregions = 1 then o else
  let o := if proc_index_x c ≠ 0 ∧ proc_index_y c ≠ 0 then
    { o with slaved_points := o.slaved_points ++ pieSlaveCornerSeg c,
             master_colors := o.master_colors ++ [(c.my_color : ℤ) - c.num_proc_x - 1],
             slaved_points_counts := o.slaved_points_counts ++ [1] } else o
  let o := if proc_index_y c ≠ 0 then
    { o with slaved_points := o.slaved_points ++ pieSlaveBelowSeg c,
             master_colors := o.master_colors ++ [(c.my_color : ℤ) - c.num_proc_x],
             slaved_points_counts := o.slaved_points_counts ++ [(pieSlaveBelowSeg c).length] } else o
  let o := if proc_index_x c ≠ 0 then
    { o with slaved_points := o.slaved_points ++ pieSlaveLeftSeg c,
             master_colors := o.master_colors ++
               (if proc_index_y c = 0 ∧ 1 < proc_index_x c then [(0 : ℤ), (c.my_color : ℤ) - 1]
                else [(c.my_color : ℤ) - 1]),
             slaved_points_counts := o.slaved_points_counts ++
               (if proc_index_y c = 0 ∧ 1 < proc_index_x c then
                  [1, (pieSlaveLeftSeg c).length - 1]
                else [(pieSlaveLeftSeg c).length]) } else o
  let o := if proc_index_x c ≠ c.num_proc_x - 1 then
    { o with master_points := o.master_points ++ pieMasterRightSeg c ++
               (if proc_index_x c = 0 ∧ proc_index_y c = 0 then
                  (List.range (c.num_proc_x - 2)).map (fun _ => 0) else []),
             slave_colors := o.slave_colors ++ [(c.my_color : ℤ) + 1] ++
               (if proc_index_x c = 0 ∧ proc_index_y c = 0 then
                  (List.range (c.num_proc_x - 2)).map (fun sp => (sp : ℤ) + 2) else []),
             master_points_counts := o.master_points_counts ++ [(pieMasterRightSeg c).length] ++
               (if proc_index_x c = 0 ∧ proc_index_y c = 0 then
                  (List.range (c.num_proc_x - 2)).map (fun _ => 1) else []) } else o
  let o := if proc_index_y c ≠ c.num_proc_y - 1 then
    { o with master_points := o.master_points ++ pieMasterAboveSeg c,
             slave_colors := o.slave_colors ++ [(c.my_color : ℤ) + c.num_proc_x],
             master_points_counts := o.master_points_counts ++ [(pieMasterAboveSeg c).length] } else o
  if proc_index_x c ≠ c.num_proc_x - 1 ∧ proc_index_y c ≠ c.num_proc_y - 1 then
    { o with master_points := o.master_points ++ pieMasterCornerSeg c,
             slave_colors := o.slave_colors ++ [(c.my_color : ℤ) + c.num_proc_x + 1],
             master_points_counts := o.master_points_counts ++ [1] } else o

/-- Hex, slave points with master at lower left: the literal indices `0, 1`. -/
def hexSlaveCornerSeg (_c : GenConfig) : List ℕ := [0, 1]

/-- One step of the hex below-slave loop: state is `(p, pushed-so-far)`. -/
def hexSlaveBelowStep (c : GenConfig) (st : ℕ × List ℕ) (i : ℕ) : ℕ × List ℕ :=
  if i = 0 ∧ proc_index_x c ≠ 0 then (st.1 + 2, st.2)
  else if i = 0 ∨ i = nzones_x c then (st.1 + 1, st.2 ++ [st.1])
  else (st.1 + 2, st.2 ++ [st.1, st.1 + 1])

/-- Hex, slave points with master below: walk `p` along row 0, pushing one
point at row ends and two elsewhere, skipping (and stepping `p` past) the
first column when `proc_index_x != 0`. -/
def hexSlaveBelowSeg (c : GenConfig) : List ℕ :=
  ((List.range (num_points_x c)).foldl (hexSlaveBelowStep c) (0, [])).2

/-- Hex, slave points with master to the left: for each row `j` (skipping
row 0 when `proc_index_y != 0`), push `pbase[j]` and, away from the extreme
rows, also `pbase[j] + 1`. -/
def hexSlaveLeftSeg (c : GenConfig) : List ℕ :=
  (List.range (num_points_y c)).flatMap (fun j =>
    if j = 0 ∧ proc_index_y c ≠ 0 then []
    else if j = 0 ∨ j = nzones_y c then [hexPbase c j]
    else [hexPbase c j, hexPbase c j + 1])

/-- Hex, master points with slave to the right: for each row `j` (skipping
row 0 when `proc_index_y != 0`), with `p` the end of row `j`'s points
(`np` for the last row, else `pbase[j+1]`), push the last one or two point
indices of the row. -/
def hexMasterRightSeg (c : GenConfig) : List ℕ :=
  (List.range (num_points_y c)).flatMap (fun j =>
    if j = 0 ∧ proc_index_y c ≠ 0 then []
    else
      let p := if j = nzones_y c then hexNp c else hexPbase c (j + 1)
      if j = 0 ∨ j = nzones_y c then [p - 1] else [p - 2, p - 1])

/-- One step of the hex above-master loop: state is `(p, pushed-so-far)`. -/
def hexMasterAboveStep (c : GenConfig) (st : ℕ × List ℕ) (i : ℕ) : ℕ × List ℕ :=
  if i = 0 ∧ proc_index_x c ≠ 0 then (st.1 + 1, st.2)
  else if i = 0 ∨ i = nzones_x c then (st.1 + 1, st.2 ++ [st.1])
  else (st.1 + 2, st.2 ++ [st.1, st.1 + 1])

/-- Hex, master points with slave above: walk `p` from `pbase[nzones_y]`
along the top row, pushing one point at row ends and two elsewhere,
skipping (and stepping `p` past) the first column when `proc_index_x != 0`. -/
def hexMasterAboveSeg (c : GenConfig) : List ℕ :=
  ((List.range (num_points_x c)).foldl (hexMasterAboveStep c) (hexPbase c (nzones_y c), [])).2

/-- Hex, master points with slave at upper right: `np - 2` and `np - 1`. -/
def hexMasterCornerSeg (c : GenConfig) : List ℕ := [hexNp c - 2, hexNp c - 1]

/-- Mirrors `GenerateMesh::generateHaloPointsHex`; returns immediately when
`num_subregions == 1`. -/
def generateHaloPointsHex (c : GenConfig) (o : HaloOut) : HaloOut :=
  if c.num_subregions = 1 then o else
  let o := if proc_index_x c ≠ 0 ∧ proc_index_y c ≠ 0 then
    { o with slaved_points := o.slaved_points ++ hexSlaveCornerSeg c,
             master_colors := o.master_colors ++ [(c.my_color : ℤ) - c.num_proc_x - 1],
             slaved_points_counts := o.slaved_points_counts ++ [2] } else o
  let o := if proc_index_y c ≠ 0 then
    { o with slaved_points := o.slaved_points ++ hexSlaveBelowSeg c,
             master_colors := o.master_colors ++ [(c.my_color : ℤ) - c.num_proc_x],
             slaved_points_counts := o.slaved_points_counts ++ [(hexSlaveBelowSeg c).length] } else o
  let o := if proc_index_x c ≠ 0 then
    { o with slaved_points := o.slaved_points ++ hexSlaveLeftSeg c,
             master_colors := o.master_colors ++ [(c.my_color : ℤ) - 1],
             slaved_points_counts := o.slaved_points_counts ++ [(hexSlaveLeftSeg c).length] } else o
  let o := if proc_index_x c ≠ c.num_proc_x - 1 then
    { o with master_points := o.master_points ++ hexMasterRightSeg c,
             slave_colors := o.slave_colors ++ [(c.my_color : ℤ) + 1],
             master_points_counts := o.master_points_counts ++ [(hexMasterRightSeg c).length] } else o
  let o := if proc_index_y c ≠ c.num_proc_y - 1 then
    { o with master_points := o.master_points ++ hexMasterAboveSeg c,
             slave_colors := o.slave_colors ++ [(c.my_color : ℤ) + c.num_proc_x],
             master_points_counts := o.master_points_counts ++ [(hexMasterAboveSeg c).length] } else o
  if proc_index_x c ≠ c.num_proc_x - 1 ∧ proc_index_y c ≠ c.num_proc_y - 1 then
    { o with master_points := o.master_points ++ hexMasterCornerSeg c,
             slave_colors := o.slave_colors ++ [(c.my_color : ℤ) + c.num_proc_x + 1],
             master_points_counts := o.master_points_counts ++ [2] } else o

/-- Mirrors `GenerateMesh::generateHaloPoints`: mesh-type dispatch; for an
unrecognized tag the `assert(meshtype != allowable_mesh_type)` is the only
statement (see `unknownTagAssertFires`) and the vectors are untouched. -/
def generateHaloPoints (meshtype : String) (c : GenConfig) (o : HaloOut) : HaloOut :=
  if meshtype = "pie" then generateHaloPointsPie c o
  else if meshtype = "rect" then generateHaloPointsRect c o
  else if meshtype = "hex" then generateHaloPointsHex c o
  else o

/-! ### Global ID mappers -/

/-- Modelled from the spec: `xStart` is declared in the missing
`GenerateMesh.hh`; §4.3's even-split rule `offset(k) = ⌊k·N/P⌋` is the
formula `calcLocalConstants` also uses inline for `zone_x_offset`. -/
def xStart (c : GenConfig) (k : ℕ) : ℕ := k * c.global_nzones_x / c.num_proc_x

/-- Modelled from the spec: `yStart`, the y-axis analogue of `xStart`. -/
def yStart (c : GenConfig) (k : ℕ) : ℕ := k * c.global_nzones_y / c.num_proc_y

/-- Modelled from the spec: `numPointsPreviousRowsNonZeroJHex` is declared in
the missing `GenerateMesh.hh`; per §4.4/§4.6 the global hex point grid has
`global_nzones_x + 1` points in row 0 and `2 * global_nzones_x` in each
later non-final row, so the rows before row `gj ≥ 1` hold
`(global_nzones_x + 1) + (gj - 1) * 2 * global_nzones_x` points. -/
def numPointsPreviousRowsNonZeroJHex (c : GenConfig) (gj : ℕ) : ℤ :=
  (c.global_nzones_x : ℤ) + 1 + (gj - 1 : ℕ) * (2 * c.global_nzones_x)

/-- Mirrors `GenerateMesh::pointLocalToGlobalIDPie`. -/
def pointLocalToGlobalIDPie (c : GenConfig) (p : ℕ) : ℤ :=
  if zone_y_offset c = 0 ∧ p = 0 then 0
  else
    let py := if zone_y_offset c = 0 then (p - 1) / num_points_x c + 1
              else p / num_points_x c
    let px := if zone_y_offset c = 0 then p - ((py - 1) * num_points_x c) - 1
              else p - py * num_points_x c
    ((c.global_nzones_x : ℤ) + 1) * ((py : ℤ) + zone_y_offset c - 1) + 1 + px + zone_x_offset c

/-- Mirrors `GenerateMesh::pointLocalToGlobalIDRect`: de-perm the storage index `s`
to its raster position, shift by this rank's zone offsets into the global
raster grid, and re-perm through the global permutation. -/
def pointLocalToGlobalIDRect (c : GenConfig) (s : ℕ) : ℤ :=
  let p := deperm c s
  let py := p / num_points_x c
  let px := p - py * num_points_x c
  (global_perm c ((c.global_nzones_x + 1) * (py + zone_y_offset c) + px + zone_x_offset c) : ℤ)

/-- Mirrors `GenerateMesh::pointLocalToGlobalIDHex`. -/
def pointLocalToGlobalIDHex (c : GenConfig) (p : ℕ) : ℤ :=
  let zone_y_stop := yStart c (proc_index_y c + 1)
  let zone_x_start := xStart c (proc_index_x c)
  let zone_x_stop := xStart c (proc_index_x c + 1)
  let first_row_npts :=
    if yStart c (proc_index_y c) = 0 then num_points_x c
    else 2 * num_points_x c - (if zone_x_start = 0 then 1 else 0) - 1
  let mid_rows_npts := 2 * num_points_x c - (if zone_x_start = 0 then 1 else 0) -
    (if zone_x_stop = c.global_nzones_x then 1 else 0)
  let j := if p < first_row_npts then 0 else (p - first_row_npts) / mid_rows_npts + 1
  let i := if p < first_row_npts then p else p - first_row_npts - (j - 1) * mid_rows_npts
  let gj := j + zone_y_offset c
  let base : ℤ := if gj = 0 then 0 else numPointsPreviousRowsNonZeroJHex c gj
  let shifted : ℤ := base +
    (if gj = 0 ∨ gj = c.global_nzones_y then (zone_x_offset c : ℤ)
     else if zone_x_offset c ≠ 0 then 2 * (zone_x_offset c : ℤ) - 1 else 0) + i
  if gj = zone_y_stop ∧ zone_x_start ≠ 0 ∧ gj ≠ 0 ∧ gj ≠ c.global_nzones_y then
    shifted + 1
  else shifted

/-- Mirrors `GenerateMesh::pointLocalToGlobalID`: mesh-type dispatch over a
`globalID` initialized to `-1`; an unrecognized tag leaves `-1` in place. -/
def pointLocalToGlobalID (meshtype : String) (c : GenConfig) (p : ℕ) : ℤ :=
  if meshtype = "pie" then pointLocalToGlobalIDPie c p
  else if meshtype = "rect" then pointLocalToGlobalIDRect c p
  else if meshtype = "hex" then pointLocalToGlobalIDHex c p
  else -1

/-! ### Indexed-write buffers: reading back `applyWrites` -/

theorem foldl_update_of_not_mem (l : List (ℕ × ℕ)) (f : ℕ → ℕ) (k : ℕ)
    (h : k ∉ l.map Prod.fst) :
    l.foldl (fun g w => Function.update g w.1 w.2) f k = f k := by
  induction l generalizing f with
  | nil => rfl
  | cons w t ih =>
    simp only [List.map_cons, List.mem_cons, not_or] at h
    rw [List.foldl_cons, ih _ h.2, Function.update_noteq h.1]

theorem foldl_update_of_mem (l : List (ℕ × ℕ)) (f : ℕ → ℕ) (k v : ℕ)
    (hnd : (l.map Prod.fst).Nodup) (hm : (k, v) ∈ l) :
    l.foldl (fun g w => Function.update g w.1 w.2) f k = v := by
  induction l generalizing f with
  | nil => simp at hm
  | cons w t ih =>
    simp only [List.map_cons, List.nodup_cons] at hnd
    rcases List.mem_cons.mp hm with heq | ht
    · rw [List.foldl_cons, foldl_update_of_not_mem _ _ _ (by rw [← heq] at hnd; exact hnd.1)]
      rw [← heq, Function.update_same]
    · exact ih _ hnd.2 ht

/-- A write `(k, v)` with a duplicate-free key list reads back as `v`. -/
theorem applyWrites_of_mem (l : List (ℕ × ℕ)) (k v : ℕ)
    (hnd : (l.map Prod.fst).Nodup) (hm : (k, v) ∈ l) : applyWrites l k = v :=
  foldl_update_of_mem l _ k v hnd hm

/-! ### The mu permutation is a bijection

`muPermutation` writes `cnt++` into each visited cell; the visit list covers
every cell of the `(wx * nbx + 1) × (wy * nby + 1)` point grid exactly once
(this is what the source's final `assert(cnt == num_pts_x * num_pts_y)`
silently relies on).  We prove the visit list has the grid's cardinality and
visits every cell, hence is duplicate-free, and read the permutation and its
stored inverse back through `applyWrites_of_mem`. -/

theorem sum_map_fixed (n c : ℕ) : ((List.range n).map (fun _ => c)).sum = n * c := by
  rw [List.map_const', List.sum_replicate, List.length_range, smul_eq_mul]

theorem length_flatMap_const {α : Type} (n c : ℕ) (f : ℕ → List α)
    (h : ∀ i, i < n → (f i).length = c) :
    ((List.range n).flatMap f).length = n * c := by
  induction n with
  | zero => simp
  | succ m ih =>
    rw [List.range_succ, List.flatMap_append, List.length_append,
      ih (fun i hi => h i (by omega)), List.flatMap_cons, List.flatMap_nil,
      List.append_nil, h m (by omega)]
    ring

theorem muBlockVisit_length (wx wy : ℕ) (hwx : 1 ≤ wx) (hwy : 1 ≤ wy) (bi bj : ℕ) :
    (muBlockVisit wx wy bi bj).length =
      (if bi = 0 then wy else 0) + (if bj = 0 then wx else 0) + wx * wy := by
  obtain ⟨a, rfl⟩ : ∃ a, wx = 1 + a := Nat.exists_eq_add_of_le hwx
  obtain ⟨b, rfl⟩ : ∃ b, wy = 1 + b := Nat.exists_eq_add_of_le hwy
  have h1 : (1 : ℕ) + a - 1 = a := by omega
  have h2 : (1 : ℕ) + b - 1 = b := by omega
  simp only [muBlockVisit, List.length_append, h1, h2]
  rw [length_flatMap_const b a (fun dy => (List.range a).map
      (fun dx => ((1 + a) * bi + (dx + 1), (1 + b) * bj + (dy + 1))))
    (fun i _ => by rw [List.length_map, List.length_range])]
  by_cases hbi : bi = 0 <;> by_cases hbj : bj = 0 <;>
    simp [hbi, hbj, List.length_map, List.length_range] <;> ring

theorem muVisitRow_length (wx wy nbx : ℕ) (hwx : 1 ≤ wx) (hwy : 1 ≤ wy)
    (hnbx : 1 ≤ nbx) (bj : ℕ) :
    ((List.range nbx).flatMap (fun bi => muBlockVisit wx wy bi bj)).length =
      wy + (if bj = 0 then nbx * wx else 0) + nbx * (wx * wy) := by
  obtain ⟨m, rfl⟩ : ∃ m, nbx = 1 + m := Nat.exists_eq_add_of_le hnbx
  rw [add_comm 1 m, List.range_succ_eq_map, List.flatMap_cons, List.length_append,
    List.flatMap_map, muBlockVisit_length wx wy hwx hwy 0 bj,
    length_flatMap_const m ((if bj = 0 then wx else 0) + wx * wy) _
      (fun i _ => by
        rw [muBlockVisit_length wx wy hwx hwy (i + 1) bj, if_neg (Nat.succ_ne_zero i)]
        omega)]
  by_cases hbj : bj = 0 <;> simp [hbj] <;> ring

theorem muVisit_length (wx wy nbx nby : ℕ) (hwx : 1 ≤ wx) (hwy : 1 ≤ wy)
    (hnbx : 1 ≤ nbx) (hnby : 1 ≤ nby) :
    (muVisit wx wy nbx nby).length = (wx * nbx + 1) * (wy * nby + 1) := by
  obtain ⟨m, rfl⟩ : ∃ m, nby = 1 + m := Nat.exists_eq_add_of_le hnby
  rw [muVisit, List.length_cons, add_comm 1 m, List.range_succ_eq_map,
    List.flatMap_cons, List.length_append, List.flatMap_map,
    muVisitRow_length wx wy nbx hwx hwy hnbx 0,
    length_flatMap_const m (wy + nbx * (wx * wy)) _
      (fun i _ => by
        rw [muVisitRow_length wx wy nbx hwx hwy hnbx (i + 1), if_neg (Nat.succ_ne_zero i)]
        ring)]
  rw [if_pos (rfl : (0 : ℕ) = 0)]
  ring

theorem mem_muBlockVisit_left (wx wy bj dy : ℕ) (h : dy < wy) :
    ((0 : ℕ), wy * bj + (dy + 1)) ∈ muBlockVisit wx wy 0 bj := by
  unfold muBlockVisit
  rw [if_pos rfl]
  exact List.mem_append.mpr (Or.inl (List.mem_append.mpr (Or.inl (List.mem_append.mpr
    (Or.inl (List.mem_append.mpr (Or.inl
      (List.mem_map.mpr ⟨dy, List.mem_range.mpr h, rfl⟩))))))))

theorem mem_muBlockVisit_top (wx wy bi dx : ℕ) (h : dx < wx) :
    (bi * wx + 1 + dx, (0 : ℕ)) ∈ muBlockVisit wx wy bi 0 := by
  unfold muBlockVisit
  rw [if_pos rfl]
  refine List.mem_append.mpr (Or.inl (List.mem_append.mpr (Or.inl (List.mem_append.mpr
    (Or.inl (List.mem_append.mpr (Or.inr ?_)))))))
  exact List.mem_map.mpr ⟨dx, List.mem_range.mpr h, rfl⟩

theorem mem_muBlockVisit_right (wx wy bi bj dy : ℕ) (h : dy < wy) :
    (wx * (bi + 1), wy * bj + 1 + dy) ∈ muBlockVisit wx wy bi bj := by
  unfold muBlockVisit
  refine List.mem_append.mpr (Or.inl (List.mem_append.mpr (Or.inl (List.mem_append.mpr
    (Or.inr ?_)))))
  exact List.mem_map.mpr ⟨dy, List.mem_range.mpr h, rfl⟩

theorem mem_muBlockVisit_bottom (wx wy bi bj dx : ℕ) (h : dx < wx - 1) :
    (wx * bi + 1 + dx, wy * (bj + 1)) ∈ muBlockVisit wx wy bi bj := by
  unfold muBlockVisit
  refine List.mem_append.mpr (Or.inl (List.mem_append.mpr (Or.inr ?_)))
  exact List.mem_map.mpr ⟨dx, List.mem_range.mpr h, rfl⟩

theorem mem_muBlockVisit_mid (wx wy bi bj dx dy : ℕ) (hx : dx < wx - 1)
    (hy : dy < wy - 1) :
    (wx * bi + (dx + 1), wy * bj + (dy + 1)) ∈ muBlockVisit wx wy bi bj := by
  unfold muBlockVisit
  refine List.mem_append.mpr (Or.inr ?_)
  exact List.mem_flatMap.mpr ⟨dy, List.mem_range.mpr hy,
    List.mem_map.mpr ⟨dx, List.mem_range.mpr hx, rfl⟩⟩

theorem mem_muVisit_of_block (wx wy nbx nby bi bj : ℕ) (hbi : bi < nbx)
    (hbj : bj < nby) {p : ℕ × ℕ} (hp : p ∈ muBlockVisit wx wy bi bj) :
    p ∈ muVisit wx wy nbx nby := by
  rw [muVisit]
  exact List.mem_cons.mpr (Or.inr (List.mem_flatMap.mpr ⟨bj, List.mem_range.mpr hbj,
    List.mem_flatMap.mpr ⟨bi, List.mem_range.mpr hbi, hp⟩⟩))

/-- Every cell of the `(wx * nbx + 1) × (wy * nby + 1)` grid is visited. -/
theorem muVisit_mem (wx wy nbx nby : ℕ) (hwx : 1 ≤ wx) (hwy : 1 ≤ wy)
    (hnbx : 1 ≤ nbx) (hnby : 1 ≤ nby) (x y : ℕ) (hx : x ≤ wx * nbx)
    (hy : y ≤ wy * nby) : (x, y) ∈ muVisit wx wy nbx nby := by
  rcases Nat.eq_zero_or_pos x with hx0 | hx0 <;> rcases Nat.eq_zero_or_pos y with hy0 | hy0
  · rw [hx0, hy0, muVisit]; exact List.mem_cons_self _ _
  · -- left edge of block (0, (y-1)/wy)
    have hdiv : wy * ((y - 1) / wy) + (y - 1) % wy = y - 1 := Nat.div_add_mod _ _
    have hmod : (y - 1) % wy < wy := Nat.mod_lt _ (by omega)
    have hbj : (y - 1) / wy < nby := (Nat.div_lt_iff_lt_mul (by omega)).mpr (by
      have : nby * wy = wy * nby := Nat.mul_comm _ _
      omega)
    have := mem_muBlockVisit_left wx wy ((y - 1) / wy) ((y - 1) % wy) hmod
    rw [show wy * ((y - 1) / wy) + ((y - 1) % wy + 1) = y by omega] at this
    rw [hx0]
    exact mem_muVisit_of_block wx wy nbx nby 0 _ (by omega) hbj this
  · -- top edge of block ((x-1)/wx, 0)
    have hdiv : wx * ((x - 1) / wx) + (x - 1) % wx = x - 1 := Nat.div_add_mod _ _
    have hmod : (x - 1) % wx < wx := Nat.mod_lt _ (by omega)
    have hbi : (x - 1) / wx < nbx := (Nat.div_lt_iff_lt_mul (by omega)).mpr (by
      have : nbx * wx = wx * nbx := Nat.mul_comm _ _
      omega)
    have := mem_muBlockVisit_top wx wy ((x - 1) / wx) ((x - 1) % wx) hmod
    rw [show (x - 1) / wx * wx + 1 + (x - 1) % wx = x by
      have : (x - 1) / wx * wx = wx * ((x - 1) / wx) := Nat.mul_comm _ _
      omega] at this
    rw [hy0]
    exact mem_muVisit_of_block wx wy nbx nby _ 0 hbi (by omega) this
  · -- x ≥ 1 and y ≥ 1
    by_cases hxm : x % wx = 0
    · -- wx divides x: right edge of block (x/wx - 1, (y-1)/wy)
      have hdx : wx * (x / wx) = x := by
        have := Nat.div_add_mod x wx; omega
      have hx1 : 1 ≤ x / wx := by
        rcases Nat.eq_zero_or_pos (x / wx) with h0 | h0
        · rw [h0, Nat.mul_zero] at hdx; omega
        · exact h0
      have hbi : x / wx - 1 < nbx := by
        have hle : x / wx ≤ nbx := by
          by_contra hgt
          have h1 : nbx + 1 ≤ x / wx := by omega
          have h2 := Nat.mul_le_mul_left wx h1
          rw [hdx] at h2
          have e : wx * (nbx + 1) = wx * nbx + wx := Nat.mul_succ _ _
          omega
        omega
      have hdivy : wy * ((y - 1) / wy) + (y - 1) % wy = y - 1 := Nat.div_add_mod _ _
      have hmody : (y - 1) % wy < wy := Nat.mod_lt _ (by omega)
      have hbj : (y - 1) / wy < nby := (Nat.div_lt_iff_lt_mul (by omega)).mpr (by
        have : nby * wy = wy * nby := Nat.mul_comm _ _
        omega)
      have := mem_muBlockVisit_right wx wy (x / wx - 1) ((y - 1) / wy) ((y - 1) % wy) hmody
      rw [show x / wx - 1 + 1 = x / wx by omega, hdx,
        show wy * ((y - 1) / wy) + 1 + (y - 1) % wy = y by omega] at this
      exact mem_muVisit_of_block wx wy nbx nby _ _ hbi hbj this
    · -- wx does not divide x
      have hdx : wx * (x / wx) + x % wx = x := Nat.div_add_mod _ _
      have hmx : x % wx < wx := Nat.mod_lt _ (by omega)
      have hxlt : x < wx * nbx := by
        rcases Nat.lt_or_ge x (wx * nbx) with h | h
        · exact h
        · exfalso
          have hx' : x = wx * nbx := by omega
          have : x % wx = 0 := by rw [hx']; exact Nat.mul_mod_right wx nbx
          omega
      have hbi : x / wx < nbx := (Nat.div_lt_iff_lt_mul (by omega)).mpr
        (by have : nbx * wx = wx * nbx := Nat.mul_comm _ _; omega)
      by_cases hym : y % wy = 0
      · -- wy divides y: bottom edge of block (x/wx, y/wy - 1)
        have hdy : wy * (y / wy) = y := by have := Nat.div_add_mod y wy; omega
        have hy1 : 1 ≤ y / wy := by
          rcases Nat.eq_zero_or_pos (y / wy) with h0 | h0
          · rw [h0, Nat.mul_zero] at hdy; omega
          · exact h0
        have hbj : y / wy - 1 < nby := by
          have hle : y / wy ≤ nby := by
            by_contra hgt
            have h1 : nby + 1 ≤ y / wy := by omega
            have h2 := Nat.mul_le_mul_left wy h1
            rw [hdy] at h2
            have e : wy * (nby + 1) = wy * nby + wy := Nat.mul_succ _ _
            omega
          omega
        have := mem_muBlockVisit_bottom wx wy (x / wx) (y / wy - 1) (x % wx - 1) (by omega)
        rw [show wx * (x / wx) + 1 + (x % wx - 1) = x by omega,
          show y / wy - 1 + 1 = y / wy by omega, hdy] at this
        exact mem_muVisit_of_block wx wy nbx nby _ _ hbi hbj this
      · -- interior of block (x/wx, y/wy)
        have hdy : wy * (y / wy) + y % wy = y := Nat.div_add_mod _ _
        have hmy : y % wy < wy := Nat.mod_lt _ (by omega)
        have hylt : y < wy * nby := by
          rcases Nat.lt_or_ge y (wy * nby) with h | h
          · exact h
          · exfalso
            have hy' : y = wy * nby := by omega
            have : y % wy = 0 := by rw [hy']; exact Nat.mul_mod_right wy nby
            omega
        have hbj : y / wy < nby := (Nat.div_lt_iff_lt_mul (by omega)).mpr
          (by have : nby * wy = wy * nby := Nat.mul_comm _ _; omega)
        have := mem_muBlockVisit_mid wx wy (x / wx) (y / wy) (x % wx - 1) (y % wy - 1)
          (by omega) (by omega)
        rw [show wx * (x / wx) + (x % wx - 1 + 1) = x by omega,
          show wy * (y / wy) + (y % wy - 1 + 1) = y by omega] at this
        exact mem_muVisit_of_block wx wy nbx nby _ _ hbi hbj this

theorem muLin_length (wx wy nbx nby : ℕ) :
    (muLin wx wy nbx nby).length = (muVisit wx wy nbx nby).length := by
  rw [muLin, List.length_map]

/-- The linearized visit list is a permutation of
`range ((wx*nbx+1) * (wy*nby+1))`: every raster index is visited, and the
visit count equals the grid size. -/
theorem muLin_perm_range (wx wy nbx nby : ℕ) (hwx : 1 ≤ wx) (hwy : 1 ≤ wy)
    (hnbx : 1 ≤ nbx) (hnby : 1 ≤ nby) :
    (List.range ((wx * nbx + 1) * (wy * nby + 1))).Perm (muLin wx wy nbx nby) := by
  have hlen : (muLin wx wy nbx nby).length = (wx * nbx + 1) * (wy * nby + 1) := by
    rw [muLin_length, muVisit_length wx wy nbx nby hwx hwy hnbx hnby]
  have hsub : List.range ((wx * nbx + 1) * (wy * nby + 1)) ⊆ muLin wx wy nbx nby := by
    intro v hv
    rw [List.mem_range] at hv
    have hX : 0 < wx * nbx + 1 := by omega
    have hx : v % (wx * nbx + 1) ≤ wx * nbx := by
      have := Nat.mod_lt v hX; omega
    have hy : v / (wx * nbx + 1) ≤ wy * nby := by
      have h1 : v / (wx * nbx + 1) < wy * nby + 1 :=
        (Nat.div_lt_iff_lt_mul hX).mpr (by
          have : (wy * nby + 1) * (wx * nbx + 1) = (wx * nbx + 1) * (wy * nby + 1) :=
            Nat.mul_comm _ _
          omega)
      omega
    have hmem := muVisit_mem wx wy nbx nby hwx hwy hnbx hnby
      (v % (wx * nbx + 1)) (v / (wx * nbx + 1)) hx hy
    refine List.mem_map.mpr ⟨(v % (wx * nbx + 1), v / (wx * nbx + 1)), hmem, ?_⟩
    show linearize (wx * nbx + 1) (v % (wx * nbx + 1)) (v / (wx * nbx + 1)) = v
    rw [linearize]
    have h2 := Nat.div_add_mod v (wx * nbx + 1)
    have h3 : v / (wx * nbx + 1) * (wx * nbx + 1) = (wx * nbx + 1) * (v / (wx * nbx + 1)) :=
      Nat.mul_comm _ _
    omega
  exact (List.subperm_of_subset (List.nodup_range _) hsub).perm_of_length_le
    (by rw [hlen, List.length_range])

theorem muLin_nodup (wx wy nbx nby : ℕ) (hwx : 1 ≤ wx) (hwy : 1 ≤ wy)
    (hnbx : 1 ≤ nbx) (hnby : 1 ≤ nby) : (muLin wx wy nbx nby).Nodup :=
  ((muLin_perm_range wx wy nbx nby hwx hwy hnbx hnby).nodup_iff).mp (List.nodup_range _)

/-- Reading the permutation back: the value stored at the `k`-th visited
raster index is `k`. -/
theorem muPermutation_eval (wx wy nbx nby : ℕ) (hwx : 1 ≤ wx) (hwy : 1 ≤ wy)
    (hnbx : 1 ≤ nbx) (hnby : 1 ≤ nby) (k : ℕ) (hk : k < (muLin wx wy nbx nby).length) :
    muPermutation (wx * nbx + 1) (wy * nby + 1) nbx nby
      ((muLin wx wy nbx nby).get ⟨k, hk⟩) = k := by
  have hXw : ((wx * nbx + 1) - 1) / nbx = wx := by
    rw [Nat.add_sub_cancel]; exact Nat.mul_div_cancel wx (by omega)
  have hYw : ((wy * nby + 1) - 1) / nby = wy := by
    rw [Nat.add_sub_cancel]; exact Nat.mul_div_cancel wy (by omega)
  have hperm : muPermutation (wx * nbx + 1) (wy * nby + 1) nbx nby =
      applyWrites ((muLin wx wy nbx nby).zip
        (List.range (muVisit wx wy nbx nby).length)) := by
    simp only [muPermutation, hXw, hYw, muLin]
  rw [hperm]
  apply applyWrites_of_mem
  · rw [List.map_fst_zip _ _ (by rw [muLin_length, List.length_range])]
    exact muLin_nodup wx wy nbx nby hwx hwy hnbx hnby
  · have hk2 : k < ((muLin wx wy nbx nby).zip
        (List.range (muVisit wx wy nbx nby).length)).length := by
      rw [List.length_zip, List.length_range, muLin_length]
      rw [muLin_length] at hk
      omega
    refine List.mem_iff_getElem.mpr ⟨k, hk2, ?_⟩
    rw [List.getElem_zip, List.getElem_range, List.get_eq_getElem]

/-- All bijection facts about a `muPermutation` instance on a
`(wx*nbx+1) × (wy*nby+1)` point grid, together with the inversion
identities of the `deperm[perm[i]] = i` write loop: writing
`N = (wx*nbx+1) * (wy*nby+1)` and `mu = muPermutation`, `mu` maps
`[0, N)` into `[0, N)` injectively and surjectively, and the stored
inverse composes with it both ways. -/
theorem muPermutation_bijection (wx wy nbx nby : ℕ) (hwx : 1 ≤ wx)
    (hwy : 1 ≤ wy) (hnbx : 1 ≤ nbx) (hnby : 1 ≤ nby) :
    (∀ i, i < (wx * nbx + 1) * (wy * nby + 1) →
      muPermutation (wx * nbx + 1) (wy * nby + 1) nbx nby i <
        (wx * nbx + 1) * (wy * nby + 1)) ∧
    (∀ i, i < (wx * nbx + 1) * (wy * nby + 1) →
      ∀ j, j < (wx * nbx + 1) * (wy * nby + 1) →
      muPermutation (wx * nbx + 1) (wy * nby + 1) nbx nby i =
        muPermutation (wx * nbx + 1) (wy * nby + 1) nbx nby j → i = j) ∧
    (∀ k, k < (wx * nbx + 1) * (wy * nby + 1) →
      ∃ i, i < (wx * nbx + 1) * (wy * nby + 1) ∧
        muPermutation (wx * nbx + 1) (wy * nby + 1) nbx nby i = k) ∧
    (∀ i, i < (wx * nbx + 1) * (wy * nby + 1) →
      buildDeperm (muPermutation (wx * nbx + 1) (wy * nby + 1) nbx nby)
        ((wx * nbx + 1) * (wy * nby + 1))
        (muPermutation (wx * nbx + 1) (wy * nby + 1) nbx nby i) = i) ∧
    (∀ k, k < (wx * nbx + 1) * (wy * nby + 1) →
      muPermutation (wx * nbx + 1) (wy * nby + 1) nbx nby
        (buildDeperm (muPermutation (wx * nbx + 1) (wy * nby + 1) nbx nby)
          ((wx * nbx + 1) * (wy * nby + 1)) k) = k) := by
  have hlen : (muLin wx wy nbx nby).length = (wx * nbx + 1) * (wy * nby + 1) := by
    rw [muLin_length, muVisit_length wx wy nbx nby hwx hwy hnbx hnby]
  have hmem_iff : ∀ v, v ∈ muLin wx wy nbx nby ↔ v < (wx * nbx + 1) * (wy * nby + 1) := by
    intro v
    rw [← (muLin_perm_range wx wy nbx nby hwx hwy hnbx hnby).mem_iff, List.mem_range]
  have heval := muPermutation_eval wx wy nbx nby hwx hwy hnbx hnby
  have hlt : ∀ i, i < (wx * nbx + 1) * (wy * nby + 1) →
      muPermutation (wx * nbx + 1) (wy * nby + 1) nbx nby i <
        (wx * nbx + 1) * (wy * nby + 1) := by
    intro i hi
    obtain ⟨k, hk, hget⟩ := List.mem_iff_getElem.mp ((hmem_iff i).mpr hi)
    have := heval k hk
    rw [List.get_eq_getElem, hget] at this
    omega
  have hinj : ∀ i, i < (wx * nbx + 1) * (wy * nby + 1) →
      ∀ j, j < (wx * nbx + 1) * (wy * nby + 1) →
      muPermutation (wx * nbx + 1) (wy * nby + 1) nbx nby i =
        muPermutation (wx * nbx + 1) (wy * nby + 1) nbx nby j → i = j := by
    intro i hi j hj hij
    obtain ⟨k1, hk1, hget1⟩ := List.mem_iff_getElem.mp ((hmem_iff i).mpr hi)
    obtain ⟨k2, hk2, hget2⟩ := List.mem_iff_getElem.mp ((hmem_iff j).mpr hj)
    have e1 := heval k1 hk1
    have e2 := heval k2 hk2
    rw [List.get_eq_getElem, hget1] at e1
    rw [List.get_eq_getElem, hget2] at e2
    rw [e1, e2] at hij
    subst hij
    rw [← hget1, ← hget2]
  have hsurj : ∀ k, k < (wx * nbx + 1) * (wy * nby + 1) →
      ∃ i, i < (wx * nbx + 1) * (wy * nby + 1) ∧
        muPermutation (wx * nbx + 1) (wy * nby + 1) nbx nby i = k := by
    intro k hk
    have hk' : k < (muLin wx wy nbx nby).length := by omega
    refine ⟨(muLin wx wy nbx nby).get ⟨k, hk'⟩, ?_, heval k hk'⟩
    exact (hmem_iff _).mp (List.get_mem _ _ _)
  have hdp : ∀ i, i < (wx * nbx + 1) * (wy * nby + 1) →
      buildDeperm (muPermutation (wx * nbx + 1) (wy * nby + 1) nbx nby)
        ((wx * nbx + 1) * (wy * nby + 1))
        (muPermutation (wx * nbx + 1) (wy * nby + 1) nbx nby i) = i := by
    intro i hi
    apply applyWrites_of_mem
    · have hkeys : ((List.range ((wx * nbx + 1) * (wy * nby + 1))).map
          (fun i => (muPermutation (wx * nbx + 1) (wy * nby + 1) nbx nby i, i))).map
            Prod.fst =
          (List.range ((wx * nbx + 1) * (wy * nby + 1))).map
            (muPermutation (wx * nbx + 1) (wy * nby + 1) nbx nby) := by
        rw [List.map_map]; rfl
      rw [hkeys]
      exact List.Nodup.map_on
        (fun a ha b hb hab => hinj a (List.mem_range.mp ha) b (List.mem_range.mp hb) hab)
        (List.nodup_range _)
    · exact List.mem_map.mpr ⟨i, List.mem_range.mpr hi, rfl⟩
  refine ⟨hlt, hinj, hsurj, hdp, ?_⟩
  intro k hk
  obtain ⟨i, hi, hik⟩ := hsurj k hk
  rw [← hik, hdp i hi, hik]

/-- Bijection and inversion facts for the local permutation of a rank whose
local zone counts are positive (so the single-block widths are positive). -/
theorem perm_bijection (c : GenConfig) (hx : 1 ≤ nzones_x c) (hy : 1 ≤ nzones_y c) :
    (∀ i, i < num_points_x c * num_points_y c →
      perm c i < num_points_x c * num_points_y c) ∧
    (∀ i, i < num_points_x c * num_points_y c →
      ∀ j, j < num_points_x c * num_points_y c → perm c i = perm c j → i = j) ∧
    (∀ k, k < num_points_x c * num_points_y c →
      ∃ i, i < num_points_x c * num_points_y c ∧ perm c i = k) ∧
    (∀ i, i < num_points_x c * num_points_y c → deperm c (perm c i) = i) ∧
    (∀ k, k < num_points_x c * num_points_y c → perm c (deperm c k) = k) := by
  have h := muPermutation_bijection (nzones_x c) (nzones_y c) 1 1 hx hy le_rfl le_rfl
  simpa [perm, deperm, num_points_x, num_points_y, mul_one] using h

/-- Bijection and inversion facts for the global permutation, under the
divisibility preconditions of the `muPermutation` asserts (processor counts
divide the global zone counts) and positive block widths. -/
theorem global_perm_bijection (c : GenConfig)
    (hgx : c.global_nzones_x / c.num_proc_x * c.num_proc_x = c.global_nzones_x)
    (hgy : c.global_nzones_y / c.num_proc_y * c.num_proc_y = c.global_nzones_y)
    (hwx : 1 ≤ c.global_nzones_x / c.num_proc_x)
    (hwy : 1 ≤ c.global_nzones_y / c.num_proc_y) :
    (∀ i, i < (c.global_nzones_x + 1) * (c.global_nzones_y + 1) →
      global_perm c i < (c.global_nzones_x + 1) * (c.global_nzones_y + 1)) ∧
    (∀ i, i < (c.global_nzones_x + 1) * (c.global_nzones_y + 1) →
      ∀ j, j < (c.global_nzones_x + 1) * (c.global_nzones_y + 1) →
      global_perm c i = global_perm c j → i = j) ∧
    (∀ k, k < (c.global_nzones_x + 1) * (c.global_nzones_y + 1) →
      ∃ i, i < (c.global_nzones_x + 1) * (c.global_nzones_y + 1) ∧
        global_perm c i = k) ∧
    (∀ i, i < (c.global_nzones_x + 1) * (c.global_nzones_y + 1) →
      global_deperm c (global_perm c i) = i) ∧
    (∀ k, k < (c.global_nzones_x + 1) * (c.global_nzones_y + 1) →
      global_perm c (global_deperm c k) = k) := by
  have hnbx : 1 ≤ c.num_proc_x := by
    rcases Nat.eq_zero_or_pos c.num_proc_x with h0 | h0
    · rw [h0, Nat.div_zero] at hwx; omega
    · exact h0
  have hnby : 1 ≤ c.num_proc_y := by
    rcases Nat.eq_zero_or_pos c.num_proc_y with h0 | h0
    · rw [h0, Nat.div_zero] at hwy; omega
    · exact h0
  have h := muPermutation_bijection (c.global_nzones_x / c.num_proc_x)
    (c.global_nzones_y / c.num_proc_y) c.num_proc_x c.num_proc_y hwx hwy hnbx hnby
  rw [hgx, hgy] at h
  simpa [global_perm, global_deperm] using h

/-- C2: After `calcLocalConstants`, the local mu-permutation is a bijection
on point indices `0 .. num_points_x * num_points_y - 1` (every grid point
receives exactly one index in that range: `perm` maps the range into itself
injectively and surjectively), and the stored inverse satisfies
`perm[deperm[i]] = i` and `deperm[perm[i]] = i` for every index `i` in that
range; likewise for `global_perm` and `global_deperm` over the global point
grid.  Hypotheses: the rank's local zone counts are positive (single-block
widths positive), and — for the global permutation — the processor counts
divide the global zone counts with positive quotients (the preconditions
asserted inside `muPermutation`). -/
theorem c2_mu_bijection_and_inverse (c : GenConfig)
    (hx : 1 ≤ nzones_x c) (hy : 1 ≤ nzones_y c)
    (hgx : c.global_nzones_x / c.num_proc_x * c.num_proc_x = c.global_nzones_x)
    (hgy : c.global_nzones_y / c.num_proc_y * c.num_proc_y = c.global_nzones_y)
    (hwx : 1 ≤ c.global_nzones_x / c.num_proc_x)
    (hwy : 1 ≤ c.global_nzones_y / c.num_proc_y) :
    ((∀ i, i < num_points_x c * num_points_y c →
        perm c i < num_points_x c * num_points_y c) ∧
     (∀ i, i < num_points_x c * num_points_y c →
        ∀ j, j < num_points_x c * num_points_y c → perm c i = perm c j → i = j) ∧
     (∀ k, k < num_points_x c * num_points_y c →
        ∃ i, i < num_points_x c * num_points_y c ∧ perm c i = k)) ∧
    (∀ i, i < num_points_x c * num_points_y c →
       perm c (deperm c i) = i ∧ deperm c (perm c i) = i) ∧
    ((∀ i, i < (c.global_nzones_x + 1) * (c.global_nzones_y + 1) →
        global_perm c i < (c.global_nzones_x + 1) * (c.global_nzones_y + 1)) ∧
     (∀ i, i < (c.global_nzones_x + 1) * (c.global_nzones_y + 1) →
        ∀ j, j < (c.global_nzones_x + 1) * (c.global_nzones_y + 1) →
        global_perm c i = global_perm c j → i = j) ∧
     (∀ k, k < (c.global_nzones_x + 1) * (c.global_nzones_y + 1) →
        ∃ i, i < (c.global_nzones_x + 1) * (c.global_nzones_y + 1) ∧
          global_perm c i = k)) ∧
    (∀ i, i < (c.global_nzones_x + 1) * (c.global_nzones_y + 1) →
       global_perm c (global_deperm c i) = i ∧
       global_deperm c (global_perm c i) = i) := by
  obtain ⟨hlt, hinj, hsurj, hdp, hpd⟩ := perm_bijection c hx hy
  obtain ⟨glt, ginj, gsurj, gdp, gpd⟩ := global_perm_bijection c hgx hgy hwx hwy
  exact ⟨⟨hlt, hinj, hsurj⟩, fun i hi => ⟨hpd i hi, hdp i hi⟩,
    ⟨glt, ginj, gsurj⟩, fun i hi => ⟨gpd i hi, gdp i hi⟩⟩

/-- Witness for C2 at the concrete configuration: 2×2 global zones on a
2×2 processor grid, rank 0. -/
theorem c2_mu_bijection_and_inverse_witness :
    (1 ≤ nzones_x ⟨2, 2, 4, 2, 2, 0⟩ ∧ 1 ≤ nzones_y ⟨2, 2, 4, 2, 2, 0⟩ ∧
     (2 : ℕ) / 2 * 2 = 2 ∧ 1 ≤ (2 : ℕ) / 2) ∧
    (∀ i, i < num_points_x ⟨2, 2, 4, 2, 2, 0⟩ * num_points_y ⟨2, 2, 4, 2, 2, 0⟩ →
       perm ⟨2, 2, 4, 2, 2, 0⟩ (deperm ⟨2, 2, 4, 2, 2, 0⟩ i) = i ∧
       deperm ⟨2, 2, 4, 2, 2, 0⟩ (perm ⟨2, 2, 4, 2, 2, 0⟩ i) = i) :=
  ⟨by decide,
   (c2_mu_bijection_and_inverse ⟨2, 2, 4, 2, 2, 0⟩ (by decide) (by decide)
     (by decide) (by decide) (by decide) (by decide)).2.1⟩

/-! ### The partition planner terminates and factorizes exactly -/

/-- The decrement search, started anywhere `≥ 1`, stops at a positive
divisor of `P` (at the latest at `1`, which divides everything). -/
theorem findDivisorDown_spec (P : ℕ) (_hP : 1 ≤ P) :
    ∀ g, 1 ≤ g → 1 ≤ findDivisorDown P g ∧ findDivisorDown P g ∣ P := by
  intro g
  induction g with
  | zero => intro h; omega
  | succ n ih =>
    intro _
    rw [findDivisorDown]
    by_cases h : P % (n + 1) = 0
    · rw [if_pos h]
      exact ⟨by omega, Nat.dvd_of_mod_eq_zero h⟩
    · rw [if_neg h]
      have hn : 1 ≤ n := by
        rcases Nat.eq_zero_or_pos n with h0 | h0
        · subst h0; simp [Nat.mod_one] at h
        · exact h0
      exact ih hn

/-- The increment search, started at `1 ≤ g ≤ P` with at least `P + 1 - g`
fuel, terminates at a positive divisor of `P` (at the latest at `P`). -/
theorem findDivisorUp_spec (P : ℕ) (_hP : 1 ≤ P) :
    ∀ fuel g, 1 ≤ g → g ≤ P → P + 1 - g ≤ fuel →
      ∃ d, findDivisorUp P g fuel = some d ∧ 1 ≤ d ∧ d ∣ P := by
  intro fuel
  induction fuel with
  | zero => intro g hg hgP hf; omega
  | succ f ih =>
    intro g hg hgP hf
    rw [findDivisorUp]
    by_cases h : P % g = 0
    · rw [if_pos h]
      exact ⟨g, rfl, hg, Nat.dvd_of_mod_eq_zero h⟩
    · rw [if_neg h]
      have hlt : g < P := by
        rcases Nat.lt_or_ge g P with hl | hl
        · exact hl
        · exfalso
          have : g = P := by omega
          rw [this, Nat.mod_self] at h
          exact h rfl
      exact ih (g + 1) (by omega) (by omega) (by omega)

/-- C3: for every partition count `P ≥ 1` and global zone counts
`nx, ny ≥ 1`, `calcPartitions` terminates — both divisor-search loops end
within their fuel — and produces `num_proc_x * num_proc_y = P` with both
factors `≥ 1`.  The floating-point candidates are abstracted as `g1`, `g2`;
the source always has `1 ≤ ceil(n - 1e-12) ≤ P` since
`0 < n ≤ sqrt(P) ≤ P`, which is the hypothesis on `g2` (no hypothesis on
`g1` is needed because the source clamps it with `max(n1, 1)`). -/
theorem c3_calcPartitions_factorizes (gnx gny P g1 g2 : ℕ) (hP : 1 ≤ P)
    (_hnx : 1 ≤ gnx) (_hny : 1 ≤ gny) (hg2a : 1 ≤ g2) (hg2b : g2 ≤ P) :
    ∃ px py, calcPartitionsCore gnx gny P g1 g2 = some (px, py) ∧
      px * py = P ∧ 1 ≤ px ∧ 1 ≤ py := by
  obtain ⟨d, hd, hd1, hdvd⟩ := findDivisorUp_spec P hP (P + 1) g2 hg2a hg2b (by omega)
  obtain ⟨h1n, h1d⟩ := findDivisorDown_spec P hP (max g1 1) (le_max_right _ _)
  rw [calcPartitionsCore]
  rw [hd]
  set n1 := findDivisorDown P (max g1 1) with hn1
  set nx := if (gnx > gny : Bool) then gny else gnx
  set ny := if (gnx > gny : Bool) then gnx else gny
  set npx := if (max ((nx : ℚ) / n1) ((ny : ℚ) / (P / n1 : ℕ)) ≤
      max ((nx : ℚ) / d) ((ny : ℚ) / (P / d : ℕ))) then n1 else d with hnpx
  have hx1 : 1 ≤ npx := by
    rw [hnpx]; split <;> omega
  have hxd : npx ∣ P := by
    rw [hnpx]; split
    · exact h1d
    · exact hdvd
  have hprod : npx * (P / npx) = P := Nat.mul_div_cancel' hxd
  have hy1 : 1 ≤ P / npx := Nat.div_pos (Nat.le_of_dvd (by omega) hxd) (by omega)
  by_cases hs : gnx > gny
  · refine ⟨P / npx, npx, ?_, by rw [Nat.mul_comm]; exact hprod, hy1, hx1⟩
    simp [hs, hnpx]
  · refine ⟨npx, P / npx, ?_, hprod, hx1, hy1⟩
    simp [hs, hnpx]

/-- Witness for C3 at `P = 6`, zones `3 × 2`, candidates `g1 = g2 = 2`. -/
theorem c3_calcPartitions_factorizes_witness :
    ((1 : ℕ) ≤ 6 ∧ (1 : ℕ) ≤ 3 ∧ (1 : ℕ) ≤ 2 ∧ (1 : ℕ) ≤ 2 ∧ (2 : ℕ) ≤ 6) ∧
    (∃ px py, calcPartitionsCore 3 2 6 2 2 = some (px, py) ∧
      px * py = 6 ∧ 1 ≤ px ∧ 1 ≤ py) :=
  ⟨by decide,
   c3_calcPartitions_factorizes 3 2 6 2 2 (by decide) (by decide) (by decide)
     (by decide) (by decide)⟩

/-! ### Error handling at the dispatchers -/

/-- C4 (the code contradicts the claim): for the unrecognized mesh-family
tag `"tri"`, the `assert(meshtype != allowable_mesh_type)` of
`generate`/`generateHaloPoints` does not fire — its condition compares the
tag against the garbage string `"!@#$&!*()@#$"`, so it holds for every
ordinary unrecognized tag and the assert can only ever fire on that exact
garbage string; the dispatch falls through producing no zones instead of
terminating fail-fast. -/
theorem c4_unknown_tag_assert_never_fires :
    ("tri" ≠ "pie" ∧ "tri" ≠ "rect" ∧ "tri" ≠ "hex") ∧
    unknownTagAssertFires "tri" = false ∧
    (∀ meshtype : String,
      unknownTagAssertFires meshtype = true ↔ meshtype = allowable_mesh_type) ∧
    generateZones "tri" ⟨4, 4, 1, 1, 1, 0⟩ = [] := by
  refine ⟨by decide, by decide, ?_, by decide⟩
  intro meshtype
  simp [unknownTagAssertFires]

/-- C10: for every mesh-family tag other than `"pie"`, `"rect"`, `"hex"`
and every local point index `p`, `pointLocalToGlobalID` silently returns
the initialization value `-1` — no assertion, no termination. -/
theorem c10_unknown_tag_global_id_neg_one (meshtype : String) (c : GenConfig)
    (p : ℕ) (h1 : meshtype ≠ "pie") (h2 : meshtype ≠ "rect")
    (h3 : meshtype ≠ "hex") :
    pointLocalToGlobalID meshtype c p = -1 := by
  rw [pointLocalToGlobalID, if_neg h1, if_neg h2, if_neg h3]

/-- Witness for C10 at the tag `"tri"`. -/
theorem c10_unknown_tag_global_id_neg_one_witness :
    (("tri" : String) ≠ "pie" ∧ ("tri" : String) ≠ "rect" ∧
      ("tri" : String) ≠ "hex") ∧
    pointLocalToGlobalID "tri" ⟨4, 4, 1, 1, 1, 0⟩ 0 = -1 :=
  ⟨by decide,
   c10_unknown_tag_global_id_neg_one "tri" ⟨4, 4, 1, 1, 1, 0⟩ 0 (by decide)
     (by decide) (by decide)⟩

/-- C9: for every mesh family, a single-partition run
(`num_subregions == 1`) leaves all six halo output vectors exactly as they
were passed in — `generateHaloPoints` emits no halo relations. -/
theorem c9_single_rank_halo_noop (meshtype : String) (c : GenConfig)
    (o : HaloOut)
    (hm : meshtype = "pie" ∨ meshtype = "rect" ∨ meshtype = "hex")
    (h1 : c.num_subregions = 1) :
    generateHaloPoints meshtype c o = o := by
  rcases hm with h | h | h <;> subst h
  · rw [generateHaloPoints, if_pos rfl, generateHaloPointsPie, if_pos h1]
  · rw [generateHaloPoints, if_neg (by decide), if_pos rfl,
      generateHaloPointsRect, if_pos h1]
  · rw [generateHaloPoints, if_neg (by decide), if_neg (by decide), if_pos rfl,
      generateHaloPointsHex, if_pos h1]

/-- Witness for C9: rect mesh, single subregion, empty output vectors. -/
theorem c9_single_rank_halo_noop_witness :
    (("rect" : String) = "pie" ∨ ("rect" : String) = "rect" ∨
      ("rect" : String) = "hex") ∧
    GenConfig.num_subregions ⟨4, 4, 1, 1, 1, 0⟩ = 1 ∧
    generateHaloPoints "rect" ⟨4, 4, 1, 1, 1, 0⟩ ⟨[], [], [], [], [], []⟩ =
      ⟨[], [], [], [], [], []⟩ :=
  ⟨Or.inr (Or.inl rfl), rfl,
   c9_single_rank_halo_noop "rect" ⟨4, 4, 1, 1, 1, 0⟩ ⟨[], [], [], [], [], []⟩
     (Or.inr (Or.inl rfl)) rfl⟩

/-! ### CRS connectivity well-formedness -/

theorem crsOfZones_foldl (zones : List (List ℤ)) :
    ∀ (s z : List ℕ) (p : List ℤ),
    zones.foldl crsAppendZone (s, z, p) =
      (s ++ (List.range zones.length).map (fun k => p.length + crsStartAt zones k),
       z ++ zones.map List.length, p ++ zones.flatten) := by
  induction zones with
  | nil => intro s z p; simp
  | cons v t ih =>
    intro s z p
    rw [List.foldl_cons,
      show crsAppendZone (s, z, p) v = (s ++ [p.length], z ++ [v.length], p ++ v)
        from rfl, ih]
    refine congrArg₂ Prod.mk ?_ (congrArg₂ Prod.mk ?_ ?_)
    · rw [List.length_cons, List.range_succ_eq_map, List.map_cons, List.map_map,
        List.append_assoc]
      refine congrArg (s ++ ·) (congrArg₂ List.cons ?_ ?_)
      · simp [crsStartAt]
      · refine List.map_congr_left (fun k _ => ?_)
        simp only [Function.comp_apply, crsStartAt, List.length_append,
          Nat.succ_eq_add_one, List.take_succ_cons, List.map_cons, List.sum_cons]
        omega
    · rw [List.map_cons, List.append_assoc]; rfl
    · rw [List.flatten_cons, ← List.append_assoc]

theorem crsOfZones_eq (zones : List (List ℤ)) :
    crsOfZones zones =
      ((List.range zones.length).map (fun k => crsStartAt zones k),
       zones.map List.length, zones.flatten) := by
  rw [crsOfZones, crsOfZones_foldl]
  simp

/-- Well-formedness of the CRS triple plus appended sentinel, for any
non-empty zone list: `zonestart` (with sentinel) lists the partial sums. -/
theorem crs_sentinel_eq (zones : List (List ℤ)) (h : 1 ≤ zones.length) :
    (crsOfZones zones).1 ++
        [lastElem (crsOfZones zones).1 + lastElem (crsOfZones zones).2.1] =
      (List.range (zones.length + 1)).map (fun k => crsStartAt zones k) := by
  rw [crsOfZones_eq]
  have hlast1 : lastElem ((List.range zones.length).map
      (fun k => crsStartAt zones k)) = crsStartAt zones (zones.length - 1) := by
    rw [lastElem, List.length_map, List.length_range]
    rw [List.getD_eq_getElem _ _ (by
      rw [List.length_map, List.length_range]; omega)]
    rw [List.getElem_map, List.getElem_range]
  have hlast2 : lastElem (zones.map List.length) =
      (zones.map List.length).getD (zones.length - 1) 0 := by
    rw [lastElem, List.length_map]
  rw [hlast1, hlast2, List.range_succ, List.map_append]
  refine congrArg _ (congrArg (fun x => [x]) ?_)
  have hlt : zones.length - 1 < zones.length := by omega
  rw [List.getD_eq_getElem _ _ (by rw [List.length_map]; exact hlt),
    List.getElem_map]
  have hsum := List.sum_take_succ (zones.map List.length) (zones.length - 1)
    (by rw [List.length_map]; exact hlt)
  rw [show zones.length - 1 + 1 = zones.length by omega] at hsum
  have hto : (zones.map List.length).take zones.length = zones.map List.length := by
    have h := List.take_length (zones.map List.length)
    rwa [List.length_map] at h
  rw [hto, List.getElem_map] at hsum
  simp only [crsStartAt, List.map_take]
  rw [hto]
  omega

theorem crsStartAt_succ (zones : List (List ℤ)) (z : ℕ) (hz : z < zones.length) :
    crsStartAt zones (z + 1) = crsStartAt zones z + (zones.getD z []).length := by
  simp only [crsStartAt, List.map_take]
  have h := List.sum_take_succ (zones.map List.length) z
    (by rw [List.length_map]; exact hz)
  rw [List.getElem_map] at h
  rw [h, List.getD_eq_getElem _ _ hz]

theorem crsStartAt_length (zones : List (List ℤ)) :
    crsStartAt zones zones.length = (zones.map List.length).sum := by
  simp only [crsStartAt, List.map_take]
  have h := List.take_length (zones.map List.length)
  rw [List.length_map] at h
  rw [h]

theorem grid_flatMap_length {α : Type} (a b : ℕ) (f : ℕ → ℕ → α) :
    ((List.range a).flatMap (fun j => (List.range b).map (f j))).length = a * b :=
  length_flatMap_const a b _ (fun _ _ => by rw [List.length_map, List.length_range])

theorem rectZones_length (c : GenConfig) : (rectZones c).length = num_zones c := by
  rw [rectZones, grid_flatMap_length, num_zones, Nat.mul_comm]

theorem pieZones_length (c : GenConfig) : (pieZones c).length = num_zones c := by
  rw [pieZones, grid_flatMap_length, num_zones, Nat.mul_comm]

theorem hexZones_length (c : GenConfig) : (hexZones c).length = num_zones c := by
  rw [hexZones, grid_flatMap_length, num_zones, Nat.mul_comm]

theorem generateZones_length (meshtype : String) (c : GenConfig)
    (hm : meshtype = "pie" ∨ meshtype = "rect" ∨ meshtype = "hex") :
    (generateZones meshtype c).length = num_zones c := by
  rcases hm with h | h | h <;> subst h
  · rw [generateZones, if_pos rfl, pieZones_length]
  · rw [generateZones, if_neg (by decide), if_pos rfl, rectZones_length]
  · rw [generateZones, if_neg (by decide), if_neg (by decide), if_pos rfl,
      hexZones_length]

/-- C6: for every generated mesh of every family (with at least one local
zone, as required by the `back()` calls of the sentinel push), the CRS
connectivity output of `generate` is well-formed: `zonestart` (with its
appended sentinel) has `num_zones + 1` entries and is non-decreasing,
`zonestart[z+1] - zonestart[z] = zonesize[z]` for every zone `z`,
`zonepoints.size() = zonestart[num_zones]`, and the appended sentinel
satisfies `zonestart[num_zones] = zonestart[num_zones-1] +
zonesize[num_zones-1]`. -/
theorem c6_crs_well_formed (meshtype : String) (c : GenConfig)
    (hm : meshtype = "pie" ∨ meshtype = "rect" ∨ meshtype = "hex")
    (hz : 1 ≤ num_zones c) :
    (generateCRS meshtype c).1.length = num_zones c + 1 ∧
    (∀ z, z < num_zones c →
      (generateCRS meshtype c).1.getD z 0 ≤
        (generateCRS meshtype c).1.getD (z + 1) 0 ∧
      (generateCRS meshtype c).1.getD (z + 1) 0 -
          (generateCRS meshtype c).1.getD z 0 =
        (generateCRS meshtype c).2.1.getD z 0) ∧
    (generateCRS meshtype c).2.2.length =
      (generateCRS meshtype c).1.getD (num_zones c) 0 ∧
    (generateCRS meshtype c).1.getD (num_zones c) 0 =
      (generateCRS meshtype c).1.getD (num_zones c - 1) 0 +
        (generateCRS meshtype c).2.1.getD (num_zones c - 1) 0 := by
  have hlen : (generateZones meshtype c).length = num_zones c :=
    generateZones_length meshtype c hm
  have hzl : 1 ≤ (generateZones meshtype c).length := by omega
  have h1 : (generateCRS meshtype c).1 =
      (List.range (num_zones c + 1)).map
        (fun k => crsStartAt (generateZones meshtype c) k) := by
    rw [generateCRS]
    have := crs_sentinel_eq (generateZones meshtype c) hzl
    rw [hlen] at this
    exact this
  have h2 : (generateCRS meshtype c).2.1 =
      (generateZones meshtype c).map List.length := by
    rw [generateCRS]
    simp only [crsOfZones_eq]
  have h3 : (generateCRS meshtype c).2.2 = (generateZones meshtype c).flatten := by
    rw [generateCRS]
    simp only [crsOfZones_eq]
  have hget : ∀ k, k ≤ num_zones c →
      (generateCRS meshtype c).1.getD k 0 =
        crsStartAt (generateZones meshtype c) k := by
    intro k hk
    rw [h1, List.getD_eq_getElem _ _ (by
      rw [List.length_map, List.length_range]; omega)]
    rw [List.getElem_map, List.getElem_range]
  have hszget : ∀ z, z < num_zones c →
      (generateCRS meshtype c).2.1.getD z 0 =
        ((generateZones meshtype c).getD z []).length := by
    intro z hzlt
    rw [h2, List.getD_eq_getElem _ _ (by rw [List.length_map]; omega)]
    rw [List.getElem_map, List.getD_eq_getElem _ _ (by omega)]
  refine ⟨by rw [h1, List.length_map, List.length_range], ?_, ?_, ?_⟩
  · intro z hzlt
    have hsucc := crsStartAt_succ (generateZones meshtype c) z (by omega)
    rw [hget z (by omega), hget (z + 1) (by omega), hszget z hzlt, hsucc]
    omega
  · rw [h3, List.length_flatten, hget (num_zones c) le_rfl, ← hlen,
      crsStartAt_length]
  · have hsucc := crsStartAt_succ (generateZones meshtype c) (num_zones c - 1)
      (by omega)
    rw [show num_zones c - 1 + 1 = num_zones c by omega] at hsucc
    rw [hget (num_zones c) le_rfl, hget (num_zones c - 1) (by omega),
      hszget (num_zones c - 1) (by omega), hsucc]

/-- Witness for C6: hex mesh, 2×2 global zones, single rank. -/
theorem c6_crs_well_formed_witness :
    (("hex" : String) = "pie" ∨ ("hex" : String) = "rect" ∨
      ("hex" : String) = "hex") ∧
    1 ≤ num_zones ⟨2, 2, 1, 1, 1, 0⟩ ∧
    (generateCRS "hex" ⟨2, 2, 1, 1, 1, 0⟩).2.2.length =
      (generateCRS "hex" ⟨2, 2, 1, 1, 1, 0⟩).1.getD
        (num_zones ⟨2, 2, 1, 1, 1, 0⟩) 0 :=
  ⟨Or.inr (Or.inr rfl), by decide,
   (c6_crs_well_formed "hex" ⟨2, 2, 1, 1, 1, 0⟩ (Or.inr (Or.inr rfl))
     (by decide)).2.2.1⟩

/-! ### Pie topology: pole collapse and zone shapes -/

/-- Indexed access into a grid-shaped `flatMap` of constant-length rows. -/
theorem flatMap_grid_getD {α : Type} (b : ℕ) (d : α) :
    ∀ (a : ℕ) (f : ℕ → ℕ → α) (j i : ℕ), j < a → i < b →
    ((List.range a).flatMap (fun j => (List.range b).map (f j))).getD (j * b + i) d =
      f j i := by
  intro a
  induction a with
  | zero => intro f j i hj; omega
  | succ m ih =>
    intro f j i hj hi
    rw [List.range_succ_eq_map, List.flatMap_cons, List.flatMap_map]
    rcases Nat.eq_zero_or_pos j with h0 | h0
    · subst h0
      rw [Nat.zero_mul, Nat.zero_add,
        List.getD_append _ _ _ i (by rw [List.length_map, List.length_range]; omega),
        List.getD_eq_getElem _ _ (by rw [List.length_map, List.length_range]; omega),
        List.getElem_map, List.getElem_range]
    · rw [List.getD_append_right _ _ _ _ (by
        rw [List.length_map, List.length_range]
        have : 1 * b ≤ j * b := Nat.mul_le_mul_right b h0
        omega)]
      rw [List.length_map, List.length_range]
      have harith : j * b + i - b = (j - 1) * b + i := by
        have e1 : (j - 1 + 1) * b = (j - 1) * b + b := by ring
        have e2 : j - 1 + 1 = j := by omega
        rw [e2] at e1
        omega
      rw [harith]
      have hres := ih (fun jp => f (jp + 1)) (j - 1) i (by omega) hi
      simp only at hres
      rw [show j - 1 + 1 = j from by omega] at hres
      exact hres

/-- On a pole-row rank the pie point list is the pole followed by the
raster-order rows `j = 1, ..., nzones_y`. -/
theorem piePoints_split (c : GenConfig) (hzy : zone_y_offset c = 0) :
    piePoints c = PiePoint.pole ::
      (List.range (nzones_y c)).flatMap (fun jp =>
        (List.range (num_points_x c)).map
          (fun i => PiePoint.polar (jp + 1) (i + zone_x_offset c))) := by
  rw [piePoints, num_points_y, List.range_succ_eq_map, List.flatMap_cons,
    List.flatMap_map]
  simp [hzy, Nat.succ_ne_zero]

/-- C7: for every pie mesh on a rank with `zone_y_offset == 0`: exactly one
stored point is the pole `(0,0)` (row `j = 0` collapses to a single point
regardless of `i`); the points are stored in raster order with no
permutation (the pole at storage index 0, and raster point `(i, jp+1)` at
storage index `1 + jp * num_points_x + i`); every zone in row `j = 0` has
`zonesize` 3 with the pole (local index 0) as its first vertex, and every
zone in every other row has `zonesize` 4. -/
theorem c7_pie_pole_row_collapse (c : GenConfig) (hzy : zone_y_offset c = 0) :
    (piePoints c).count PiePoint.pole = 1 ∧
    (piePoints c).getD 0 (PiePoint.polar 0 0) = PiePoint.pole ∧
    (∀ jp i, jp < nzones_y c → i < num_points_x c →
      (piePoints c).getD (1 + (jp * num_points_x c + i)) (PiePoint.polar 0 0) =
        PiePoint.polar (jp + 1) (i + zone_x_offset c)) ∧
    (∀ j i, j < nzones_y c → i < nzones_x c →
      ((pieZones c).getD (j * nzones_x c + i) []).length =
        (if j = 0 then 3 else 4) ∧
      (j = 0 → ((pieZones c).getD (j * nzones_x c + i) []).getD 0 0 = 0)) := by
  refine ⟨?_, ?_, ?_, ?_⟩
  · rw [piePoints_split c hzy, List.count_cons_self]
    have h0 : ((List.range (nzones_y c)).flatMap (fun jp =>
        (List.range (num_points_x c)).map
          (fun i => PiePoint.polar (jp + 1) (i + zone_x_offset c)))).count
        PiePoint.pole = 0 := by
      refine List.count_eq_zero.mpr (fun hmem => ?_)
      rw [List.mem_flatMap] at hmem
      obtain ⟨jp, _, hm⟩ := hmem
      rw [List.mem_map] at hm
      obtain ⟨i, _, heq⟩ := hm
      exact PiePoint.noConfusion heq
    rw [h0]
  · rw [piePoints_split c hzy, List.getD_cons_zero]
  · intro jp i hjp hi
    rw [piePoints_split c hzy, show 1 + (jp * num_points_x c + i) =
        jp * num_points_x c + i + 1 by omega, List.getD_cons_succ]
    exact flatMap_grid_getD (num_points_x c) (PiePoint.polar 0 0) (nzones_y c)
      (fun jp i => PiePoint.polar (jp + 1) (i + zone_x_offset c)) jp i hjp hi
  · intro j i hj hi
    have hz : (pieZones c).getD (j * nzones_x c + i) [] = pieZone c i j := by
      rw [pieZones]
      exact flatMap_grid_getD (nzones_x c) [] (nzones_y c)
        (fun j i => pieZone c i j) j i hj hi
    rw [hz, pieZone]
    by_cases hj0 : j = 0
    · subst hj0
      simp [hzy]
    · simp [hzy, hj0]

/-- Witness for C7 at the rank `(0,0)` of a 2×2 grid on 4×4 global zones. -/
theorem c7_pie_pole_row_collapse_witness :
    zone_y_offset ⟨4, 4, 4, 2, 2, 0⟩ = 0 ∧
    (piePoints ⟨4, 4, 4, 2, 2, 0⟩).count PiePoint.pole = 1 :=
  ⟨by decide, (c7_pie_pole_row_collapse ⟨4, 4, 4, 2, 2, 0⟩ (by decide)).1⟩

/-! ### Hex topology: zone vertex counts -/

/-- Closed form of the hex zone vertex count: the 6-slot template loses one
vertex per global-boundary side the zone touches, at most two. -/
theorem hexZone_length (c : GenConfig) (i j : ℕ) :
    (hexZone c i j).length =
      if j + zone_y_offset c = 0 then
        (if i + zone_x_offset c = c.global_nzones_x - 1 then 4 else 5)
      else if j + zone_y_offset c = c.global_nzones_y - 1 then
        (if i + zone_x_offset c = 0 then 4 else 5)
      else if i + zone_x_offset c = 0 then 5
      else if i + zone_x_offset c = c.global_nzones_x - 1 then 5
      else 6 := by
  rw [hexZone]
  split_ifs <;> rfl

/-- C5 counterexample: in the hex mesh with 2×2 global zones on a single
rank, zone 0 (bottom-left, touching only the bottom global row) is emitted
with `zonesize` 5 — not 3, 4 or 6 — so "every hex zonesize is 3, 4, or 6"
fails on the code, and no corner zone is a triangle (the sizes are
`[5, 4, 4, 5]`). -/
theorem c5_hex_zonesize_counterexample :
    (crsOfZones (hexZones ⟨2, 2, 1, 1, 1, 0⟩)).2.1.getD 0 0 = 5 ∧
    ¬((crsOfZones (hexZones ⟨2, 2, 1, 1, 1, 0⟩)).2.1.getD 0 0 = 3 ∨
      (crsOfZones (hexZones ⟨2, 2, 1, 1, 1, 0⟩)).2.1.getD 0 0 = 4 ∨
      (crsOfZones (hexZones ⟨2, 2, 1, 1, 1, 0⟩)).2.1.getD 0 0 = 6) ∧
    (crsOfZones (hexZones ⟨2, 2, 1, 1, 1, 0⟩)).2.1 = [5, 4, 4, 5] := by decide

/-- C5 (amended): for every hex mesh zone, the emitted `zonesize` (vertex
count) is 4, 5, or 6 — never 3; zones in extreme corner positions of the
global mesh where two removal conditions apply simultaneously (bottom
global row and rightmost global column, or — when distinct from the bottom
row — top global row and leftmost global column) are quads with exactly 4
vertices. -/
theorem c5_hex_zonesize_amended (c : GenConfig) :
    ∀ j i, j < nzones_y c → i < nzones_x c →
      ((crsOfZones (hexZones c)).2.1.getD (j * nzones_x c + i) 0 = 4 ∨
       (crsOfZones (hexZones c)).2.1.getD (j * nzones_x c + i) 0 = 5 ∨
       (crsOfZones (hexZones c)).2.1.getD (j * nzones_x c + i) 0 = 6) ∧
      (i + zone_x_offset c = c.global_nzones_x - 1 ∧ j + zone_y_offset c = 0 →
        (crsOfZones (hexZones c)).2.1.getD (j * nzones_x c + i) 0 = 4) ∧
      (i + zone_x_offset c = 0 ∧ j + zone_y_offset c = c.global_nzones_y - 1 ∧
          j + zone_y_offset c ≠ 0 →
        (crsOfZones (hexZones c)).2.1.getD (j * nzones_x c + i) 0 = 4) := by
  intro j i hj hi
  have hzd : (crsOfZones (hexZones c)).2.1.getD (j * nzones_x c + i) 0 =
      (hexZone c i j).length := by
    rw [crsOfZones_eq]
    have hmap := @List.getD_map (List ℤ) ℕ (hexZones c) ([] : List ℤ)
      (j * nzones_x c + i) List.length
    rw [show List.length ([] : List ℤ) = 0 from rfl] at hmap
    rw [hmap]
    have hg : (hexZones c).getD (j * nzones_x c + i) [] = hexZone c i j := by
      rw [hexZones]
      exact flatMap_grid_getD (nzones_x c) [] (nzones_y c)
        (fun j i => hexZone c i j) j i hj hi
    rw [hg]
  rw [hzd, hexZone_length]
  refine ⟨?_, ?_, ?_⟩
  · split_ifs <;> omega
  · intro ⟨h1, h2⟩
    rw [if_pos h2, if_pos h1]
  · intro ⟨h1, h2, h3⟩
    rw [if_neg h3, if_pos h2, if_pos h1]

/-- Witness for the amended C5 at the bottom-right corner zone of the 2×2
hex mesh on a single rank. -/
theorem c5_hex_zonesize_amended_witness :
    (0 < nzones_y ⟨2, 2, 1, 1, 1, 0⟩ ∧ 1 < nzones_x ⟨2, 2, 1, 1, 1, 0⟩) ∧
    (((crsOfZones (hexZones ⟨2, 2, 1, 1, 1, 0⟩)).2.1.getD
        (0 * nzones_x ⟨2, 2, 1, 1, 1, 0⟩ + 1) 0 = 4 ∨
      (crsOfZones (hexZones ⟨2, 2, 1, 1, 1, 0⟩)).2.1.getD
        (0 * nzones_x ⟨2, 2, 1, 1, 1, 0⟩ + 1) 0 = 5 ∨
      (crsOfZones (hexZones ⟨2, 2, 1, 1, 1, 0⟩)).2.1.getD
        (0 * nzones_x ⟨2, 2, 1, 1, 1, 0⟩ + 1) 0 = 6) ∧
     (1 + zone_x_offset ⟨2, 2, 1, 1, 1, 0⟩ =
          GenConfig.global_nzones_x ⟨2, 2, 1, 1, 1, 0⟩ - 1 ∧
        0 + zone_y_offset ⟨2, 2, 1, 1, 1, 0⟩ = 0 →
      (crsOfZones (hexZones ⟨2, 2, 1, 1, 1, 0⟩)).2.1.getD
        (0 * nzones_x ⟨2, 2, 1, 1, 1, 0⟩ + 1) 0 = 4) ∧
     (1 + zone_x_offset ⟨2, 2, 1, 1, 1, 0⟩ = 0 ∧
        0 + zone_y_offset ⟨2, 2, 1, 1, 1, 0⟩ =
          GenConfig.global_nzones_y ⟨2, 2, 1, 1, 1, 0⟩ - 1 ∧
        0 + zone_y_offset ⟨2, 2, 1, 1, 1, 0⟩ ≠ 0 →
      (crsOfZones (hexZones ⟨2, 2, 1, 1, 1, 0⟩)).2.1.getD
        (0 * nzones_x ⟨2, 2, 1, 1, 1, 0⟩ + 1) 0 = 4)) :=
  ⟨by decide,
   c5_hex_zonesize_amended ⟨2, 2, 1, 1, 1, 0⟩ 0 1 (by decide) (by decide)⟩

/-! ### Corner deduplication of slave relations (C8) -/

/-- A skip-first-entry loop: `filterMap` over `range (n+1)` whose guard
drops index `0` and keeps every later index. -/
theorem filterMap_skip_head {α : Type} (n : ℕ) (g : ℕ → Option α) (f : ℕ → α)
    (h0 : g 0 = none) (hs : ∀ i, g (i + 1) = some (f (i + 1))) :
    (List.range (n + 1)).filterMap g = (List.range n).map (fun i => f (i + 1)) := by
  rw [List.range_succ_eq_map, List.filterMap_cons, h0, List.filterMap_map]
  have : (g ∘ Nat.succ) = (some ∘ fun i => f (i + 1)) := by
    funext i
    exact hs i
  rw [this, List.filterMap_eq_map]

/-- With a left neighbor present, the rect below-slave list skips its first
column entry: it is `perm[i]` for `i = 1, ..., nzones_x`. -/
theorem rectSlaveBelowSeg_skip (c : GenConfig) (hpx : proc_index_x c ≠ 0) :
    rectSlaveBelowSeg c = (List.range (nzones_x c)).map (fun i => perm c (i + 1)) := by
  rw [rectSlaveBelowSeg, num_points_x]
  exact filterMap_skip_head (nzones_x c) _ (fun i => perm c i)
    (by rw [if_pos ⟨rfl, hpx⟩])
    (fun i => by rw [if_neg (by simp)])

/-- With a lower neighbor present, the rect left-slave list skips its first
row entry: it is `perm[j * num_points_x]` for `j = 1, ..., nzones_y`. -/
theorem rectSlaveLeftSeg_skip (c : GenConfig) (hpy : proc_index_y c ≠ 0) :
    rectSlaveLeftSeg c =
      (List.range (nzones_y c)).map (fun j => perm c ((j + 1) * num_points_x c)) := by
  rw [rectSlaveLeftSeg, num_points_y]
  exact filterMap_skip_head (nzones_y c) _ (fun j => perm c (j * num_points_x c))
    (by rw [if_pos ⟨rfl, hpy⟩])
    (fun j => by rw [if_neg (by simp)])

/-- With a left neighbor present, the pie below-slave list skips its first
column entry: it is the raw indices `1, ..., nzones_x`. -/
theorem pieSlaveBelowSeg_skip (c : GenConfig) (hpx : proc_index_x c ≠ 0) :
    pieSlaveBelowSeg c = (List.range (nzones_x c)).map (fun i => i + 1) := by
  rw [pieSlaveBelowSeg, num_points_x]
  exact filterMap_skip_head (nzones_x c) _ (fun i => i)
    (by rw [if_pos ⟨rfl, hpx⟩])
    (fun i => by rw [if_neg (by simp)])

/-- Away from the pole row, the pie left-slave list skips its first row
entry: it is `j * num_points_x` for `j = 1, ..., nzones_y`. -/
theorem pieSlaveLeftSeg_skip (c : GenConfig) (hpy : 0 < proc_index_y c) :
    pieSlaveLeftSeg c =
      (List.range (nzones_y c)).map (fun j => (j + 1) * num_points_x c) := by
  rw [pieSlaveLeftSeg, if_neg (by omega), if_pos hpy, num_points_y,
    Nat.add_sub_cancel, List.nil_append]
  refine List.map_congr_left (fun j _ => ?_)
  ring

/-- Folding the hex below-slave step over interior columns (neither the
first nor the last) pushes two consecutive indices per column. -/
theorem hexBelowFold_interior (c : GenConfig) (l : List ℕ)
    (h : ∀ i ∈ l, i ≠ 0 ∧ i ≠ nzones_x c) :
    ∀ p acc, l.foldl (hexSlaveBelowStep c) (p, acc) =
      (p + 2 * l.length, acc ++ List.range' p (2 * l.length)) := by
  induction l with
  | nil => intro p acc; simp
  | cons a t ih =>
    intro p acc
    obtain ⟨ha0, han⟩ := h a (List.mem_cons_self _ _)
    rw [List.foldl_cons,
      show hexSlaveBelowStep c (p, acc) a = (p + 2, acc ++ [p, p + 1]) from by
        rw [hexSlaveBelowStep, if_neg (fun hc => ha0 hc.1),
          if_neg (fun hc => hc.elim ha0 han)],
      ih (fun i hi => h i (List.mem_cons_of_mem _ hi)) (p + 2) (acc ++ [p, p + 1])]
    refine congrArg₂ Prod.mk (by rw [List.length_cons]; ring) ?_
    rw [List.append_assoc]
    refine congrArg (acc ++ ·) ?_
    have happ := List.range'_append p 2 (2 * t.length) 1
    rw [show List.range' p 2 = [p, p + 1] from rfl, Nat.one_mul] at happ
    rw [happ, List.length_cons, show 2 * (t.length + 1) = 2 * t.length + 2 by ring]

/-- With a left neighbor present (and interior columns well-defined), the
hex below-slave list skips both points of its first column: it is the
consecutive indices `2, ..., 2 * nzones_x`. -/
theorem hexSlaveBelowSeg_skip (c : GenConfig) (hpx : proc_index_x c ≠ 0)
    (hnzx : 1 ≤ nzones_x c) :
    hexSlaveBelowSeg c = List.range' 2 (2 * nzones_x c - 1) := by
  obtain ⟨m, hm⟩ : ∃ m, nzones_x c = m + 1 := ⟨nzones_x c - 1, by omega⟩
  rw [hexSlaveBelowSeg, num_points_x, hm, List.range_succ, List.foldl_append,
    List.range_succ_eq_map]
  have hinner : List.foldl (hexSlaveBelowStep c) (0, [])
      (0 :: (List.range m).map Nat.succ) = (2 + 2 * m, List.range' 2 (2 * m)) := by
    rw [List.foldl_cons,
      show hexSlaveBelowStep c (0, []) 0 = (2, []) from by
        rw [hexSlaveBelowStep, if_pos ⟨rfl, hpx⟩]]
    have hfold := hexBelowFold_interior c ((List.range m).map Nat.succ)
      (fun i hi => by
        obtain ⟨k, hk, rfl⟩ := List.mem_map.mp hi
        rw [List.mem_range] at hk
        rw [hm]
        exact ⟨Nat.succ_ne_zero k, by omega⟩) 2 []
    rw [hfold, List.length_map, List.length_range, List.nil_append]
  rw [hinner,
    show List.foldl (hexSlaveBelowStep c) (2 + 2 * m, List.range' 2 (2 * m)) [m + 1] =
      hexSlaveBelowStep c (2 + 2 * m, List.range' 2 (2 * m)) (m + 1) from rfl,
    show hexSlaveBelowStep c (2 + 2 * m, List.range' 2 (2 * m)) (m + 1) =
      (2 + 2 * m + 1, List.range' 2 (2 * m) ++ [2 + 2 * m]) from by
      rw [hexSlaveBelowStep, if_neg (fun hc => Nat.succ_ne_zero m hc.1),
        if_pos (Or.inr (by rw [hm]))]]
  have hconc := @List.range'_concat 1 2 (2 * m)
  rw [Nat.one_mul] at hconc
  rw [← hconc, show 2 * (m + 1) - 1 = 2 * m + 1 by omega]

/-- With a lower neighbor present, the hex left-slave list skips row 0 and
lists, per higher row, the first one or two point indices of the row. -/
theorem hexSlaveLeftSeg_skip (c : GenConfig) (hpy : proc_index_y c ≠ 0) :
    hexSlaveLeftSeg c = (List.range (nzones_y c)).flatMap (fun jp =>
      if jp + 1 = nzones_y c then [hexPbase c (jp + 1)]
      else [hexPbase c (jp + 1), hexPbase c (jp + 1) + 1]) := by
  rw [hexSlaveLeftSeg, num_points_y, List.range_succ_eq_map, List.flatMap_cons,
    if_pos ⟨rfl, hpy⟩, List.flatMap_map, List.nil_append]
  refine List.flatMap_congr (fun jp _ => ?_)
  rw [if_neg (fun hc => Nat.succ_ne_zero jp hc.1)]
  by_cases hl : jp + 1 = nzones_y c
  · rw [if_pos (Or.inr hl), if_pos hl]
  · rw [if_neg (fun hc => hc.elim (Nat.succ_ne_zero jp) hl), if_neg hl]

theorem hexPbase_succ (c : GenConfig) (j : ℕ) :
    hexPbase c (j + 1) = hexPbase c j + hexRowCount c j := by
  rw [hexPbase, hexPbase, List.range_succ, List.map_append, List.sum_append,
    List.map_cons, List.map_nil, List.sum_cons, List.sum_nil, Nat.add_zero]

theorem hexPbase_one_le (c : GenConfig) :
    ∀ j, 1 ≤ j → hexPbase c 1 ≤ hexPbase c j := by
  intro j
  induction j with
  | zero => omega
  | succ n ih =>
    intro _
    rcases Nat.eq_zero_or_pos n with h0 | h0
    · subst h0; exact le_rfl
    · have := ih h0
      rw [hexPbase_succ c n]
      omega

/-- Under the divisibility assumptions, a non-extreme row of a rank with a
left neighbor holds `2 * nzones_x + 1` points: two per column except one at
the right end. -/
theorem hexRowCountZero (c : GenConfig)
    (hzx : 1 ≤ zone_x_offset c) (hzy1 : 1 ≤ zone_y_offset c)
    (hzy2 : zone_y_offset c < c.global_nzones_y)
    (hstop : zxstop c ≤ c.global_nzones_x)
    (hnzy : 1 ≤ nzones_y c) :
    hexRowCount c 0 = 2 * nzones_x c + 1 := by
  have hofs : zone_x_offset c ≤ zxstop c :=
    Nat.div_le_div_right (Nat.mul_le_mul_right _ (by omega))
  have hsum : nzones_x c + zone_x_offset c = zxstop c := by
    rw [nzones_x]; omega
  rw [hexRowCount, num_points_x, List.range_succ, List.map_append,
    List.sum_append, List.map_cons, List.map_nil, List.sum_cons, List.sum_nil]
  have hlast : hexPointCount c (nzones_x c) 0 = 1 := by
    simp only [hexPointCount]
    split_ifs with h1 h2 h3 <;> try rfl
    exact absurd ⟨by trivial, by trivial⟩ h2
  have hmid : ∀ i ∈ List.range (nzones_x c),
      hexPointCount c i 0 = 2 := by
    intro i hi
    rw [List.mem_range] at hi
    simp only [hexPointCount]
    rw [if_neg (by rintro (h | h | h | h) <;> omega),
      if_neg (by rintro ⟨h, _⟩; omega),
      if_neg (by rintro ⟨_, h⟩; omega)]
  rw [List.map_congr_left hmid, sum_map_fixed, hlast]
  omega

/-- C8: corner deduplication of slave relations, for every mesh family, on
every rank with both a left and a lower neighbor (under the divisibility
assumptions the offset arithmetic relies on).  The "master below" slave
list skips its first-column entry and the "master to left" slave list
skips its first-row entry, so the three slave lists (lower-left diagonal,
below, left) are pairwise disjoint — no local point index appears under
more than one slave relation, and the shared corner is reported only under
the diagonal relation. -/
theorem c8_corner_dedup (c : GenConfig)
    (hpx : proc_index_x c ≠ 0) (hpy : proc_index_y c ≠ 0)
    (hnzx : 1 ≤ nzones_x c) (hnzy : 1 ≤ nzones_y c)
    (hzx : 1 ≤ zone_x_offset c) (hzy1 : 1 ≤ zone_y_offset c)
    (hzy2 : zone_y_offset c < c.global_nzones_y)
    (hnp : 1 ≤ c.num_proc_x) :
    (rectSlaveBelowSeg c =
        (List.range (nzones_x c)).map (fun i => perm c (i + 1)) ∧
     rectSlaveLeftSeg c =
        (List.range (nzones_y c)).map (fun j => perm c ((j + 1) * num_points_x c)) ∧
     (rectSlaveCornerSeg c).Disjoint (rectSlaveBelowSeg c) ∧
     (rectSlaveCornerSeg c).Disjoint (rectSlaveLeftSeg c) ∧
     (rectSlaveBelowSeg c).Disjoint (rectSlaveLeftSeg c)) ∧
    (pieSlaveBelowSeg c = (List.range (nzones_x c)).map (fun i => i + 1) ∧
     pieSlaveLeftSeg c =
        (List.range (nzones_y c)).map (fun j => (j + 1) * num_points_x c) ∧
     (pieSlaveCornerSeg c).Disjoint (pieSlaveBelowSeg c) ∧
     (pieSlaveCornerSeg c).Disjoint (pieSlaveLeftSeg c) ∧
     (pieSlaveBelowSeg c).Disjoint (pieSlaveLeftSeg c)) ∧
    (hexSlaveBelowSeg c = List.range' 2 (2 * nzones_x c - 1) ∧
     hexSlaveLeftSeg c = (List.range (nzones_y c)).flatMap (fun jp =>
        if jp + 1 = nzones_y c then [hexPbase c (jp + 1)]
        else [hexPbase c (jp + 1), hexPbase c (jp + 1) + 1]) ∧
     (hexSlaveCornerSeg c).Disjoint (hexSlaveBelowSeg c) ∧
     (hexSlaveCornerSeg c).Disjoint (hexSlaveLeftSeg c) ∧
     (hexSlaveBelowSeg c).Disjoint (hexSlaveLeftSeg c)) := by
  have hP1 : num_points_x c = nzones_x c + 1 := rfl
  have hQ1 : num_points_y c = nzones_y c + 1 := rfl
  have hinj := (perm_bijection c hnzx hnzy).2.1
  have hPN : num_points_x c ≤ num_points_x c * num_points_y c := by
    have := Nat.mul_le_mul_left (num_points_x c) (show 1 ≤ num_points_y c by omega)
    omega
  -- rect
  have hrb := rectSlaveBelowSeg_skip c hpx
  have hrl := rectSlaveLeftSeg_skip c hpy
  have hrectbound : ∀ j, j < nzones_y c →
      (j + 1) * num_points_x c < num_points_x c * num_points_y c := by
    intro j hj
    have h1 : (j + 1) * num_points_x c ≤ nzones_y c * num_points_x c :=
      Nat.mul_le_mul_right _ (by omega)
    have h2 : nzones_y c * num_points_x c < (nzones_y c + 1) * num_points_x c := by
      have e : (nzones_y c + 1) * num_points_x c =
          nzones_y c * num_points_x c + num_points_x c := by ring
      omega
    have e2 : (nzones_y c + 1) * num_points_x c =
        num_points_x c * num_points_y c := by rw [hQ1]; ring
    omega
  refine ⟨⟨hrb, hrl, ?_, ?_, ?_⟩, ?_, ?_⟩
  · intro a h1 h2
    rw [rectSlaveCornerSeg, List.mem_singleton] at h1
    rw [hrb] at h2
    obtain ⟨i, hi, hieq⟩ := List.mem_map.mp h2
    rw [List.mem_range] at hi
    have := hinj 0 (by omega) (i + 1) (by omega) (by rw [← h1, hieq])
    omega
  · intro a h1 h2
    rw [rectSlaveCornerSeg, List.mem_singleton] at h1
    rw [hrl] at h2
    obtain ⟨j, hj, hjeq⟩ := List.mem_map.mp h2
    rw [List.mem_range] at hj
    have hb := hrectbound j hj
    have := hinj 0 (by omega) ((j + 1) * num_points_x c) (by omega)
      (by rw [← h1, hjeq])
    have hge : num_points_x c ≤ (j + 1) * num_points_x c := by
      have := Nat.mul_le_mul_right (num_points_x c) (show 1 ≤ j + 1 by omega)
      omega
    omega
  · intro a h1 h2
    rw [hrb] at h1
    rw [hrl] at h2
    obtain ⟨i, hi, hieq⟩ := List.mem_map.mp h1
    obtain ⟨j, hj, hjeq⟩ := List.mem_map.mp h2
    rw [List.mem_range] at hi hj
    have hb := hrectbound j hj
    have := hinj (i + 1) (by omega) ((j + 1) * num_points_x c) (by omega)
      (by rw [hieq, hjeq])
    have hge : num_points_x c ≤ (j + 1) * num_points_x c := by
      have := Nat.mul_le_mul_right (num_points_x c) (show 1 ≤ j + 1 by omega)
      omega
    omega
  -- pie
  · have hpb := pieSlaveBelowSeg_skip c hpx
    have hpl := pieSlaveLeftSeg_skip c (by omega)
    refine ⟨hpb, hpl, ?_, ?_, ?_⟩
    · intro a h1 h2
      rw [pieSlaveCornerSeg, List.mem_singleton] at h1
      rw [hpb] at h2
      obtain ⟨i, _, hieq⟩ := List.mem_map.mp h2
      omega
    · intro a h1 h2
      rw [pieSlaveCornerSeg, List.mem_singleton] at h1
      rw [hpl] at h2
      obtain ⟨j, hj, hjeq⟩ := List.mem_map.mp h2
      have hge : num_points_x c ≤ (j + 1) * num_points_x c := by
        have := Nat.mul_le_mul_right (num_points_x c) (show 1 ≤ j + 1 by omega)
        omega
      omega
    · intro a h1 h2
      rw [hpb] at h1
      rw [hpl] at h2
      obtain ⟨i, hi, hieq⟩ := List.mem_map.mp h1
      obtain ⟨j, hj, hjeq⟩ := List.mem_map.mp h2
      rw [List.mem_range] at hi hj
      have hge : num_points_x c ≤ (j + 1) * num_points_x c := by
        have := Nat.mul_le_mul_right (num_points_x c) (show 1 ≤ j + 1 by omega)
        omega
      omega
  -- hex
  · have hstop : zxstop c ≤ c.global_nzones_x := by
      have hpix : proc_index_x c < c.num_proc_x := Nat.mod_lt _ (by omega)
      have h1 : (proc_index_x c + 1) * c.global_nzones_x ≤
          c.num_proc_x * c.global_nzones_x := Nat.mul_le_mul_right _ (by omega)
      have h2 : zxstop c ≤ c.num_proc_x * c.global_nzones_x / c.num_proc_x :=
        Nat.div_le_div_right h1
      rw [Nat.mul_div_cancel_left _ (by omega)] at h2
      exact h2
    have hb := hexSlaveBelowSeg_skip c hpx hnzx
    have hl := hexSlaveLeftSeg_skip c hpy
    have hpb1 : hexPbase c 1 = 2 * nzones_x c + 1 := by
      have := hexPbase_succ c 0
      rw [this, show hexPbase c 0 = 0 from rfl,
        hexRowCountZero c hzx hzy1 hzy2 hstop hnzy]
      omega
    have hleft_lb : ∀ v ∈ hexSlaveLeftSeg c, 2 * nzones_x c + 1 ≤ v := by
      intro v hv
      rw [hl] at hv
      obtain ⟨jp, _, hm⟩ := List.mem_flatMap.mp hv
      have hmono := hexPbase_one_le c (jp + 1) (by omega)
      rw [hpb1] at hmono
      rcases Classical.em (jp + 1 = nzones_y c) with hcase | hcase
      · rw [if_pos hcase, List.mem_singleton] at hm
        omega
      · rw [if_neg hcase] at hm
        rcases List.mem_cons.mp hm with hm1 | hm1
        · omega
        · rw [List.mem_singleton] at hm1
          omega
    refine ⟨hb, hl, ?_, ?_, ?_⟩
    · intro a h1 h2
      rw [hb, List.mem_range'_1] at h2
      rcases List.mem_cons.mp h1 with ha | ha
      · omega
      · rw [List.mem_singleton] at ha
        omega
    · intro a h1 h2
      have := hleft_lb a h2
      rcases List.mem_cons.mp h1 with ha | ha
      · omega
      · rw [List.mem_singleton] at ha
        omega
    · intro a h1 h2
      rw [hb, List.mem_range'_1] at h1
      have := hleft_lb a h2
      omega

/-- Witness for C8: rank `(1,1)` of a 2×2 grid on 4×4 global zones. -/
theorem c8_corner_dedup_witness :
    (proc_index_x ⟨4, 4, 4, 2, 2, 3⟩ ≠ 0 ∧ proc_index_y ⟨4, 4, 4, 2, 2, 3⟩ ≠ 0 ∧
     1 ≤ nzones_x ⟨4, 4, 4, 2, 2, 3⟩ ∧ 1 ≤ nzones_y ⟨4, 4, 4, 2, 2, 3⟩ ∧
     1 ≤ zone_x_offset ⟨4, 4, 4, 2, 2, 3⟩ ∧ 1 ≤ zone_y_offset ⟨4, 4, 4, 2, 2, 3⟩ ∧
     zone_y_offset ⟨4, 4, 4, 2, 2, 3⟩ < 4 ∧
     1 ≤ GenConfig.num_proc_x ⟨4, 4, 4, 2, 2, 3⟩) ∧
    ((rectSlaveCornerSeg ⟨4, 4, 4, 2, 2, 3⟩).Disjoint
        (rectSlaveBelowSeg ⟨4, 4, 4, 2, 2, 3⟩) ∧
     (pieSlaveBelowSeg ⟨4, 4, 4, 2, 2, 3⟩).Disjoint
        (pieSlaveLeftSeg ⟨4, 4, 4, 2, 2, 3⟩) ∧
     (hexSlaveBelowSeg ⟨4, 4, 4, 2, 2, 3⟩).Disjoint
        (hexSlaveLeftSeg ⟨4, 4, 4, 2, 2, 3⟩)) := by
  have h := c8_corner_dedup ⟨4, 4, 4, 2, 2, 3⟩ (by decide) (by decide) (by decide)
    (by decide) (by decide) (by decide) (by decide) (by decide)
  exact ⟨by decide, h.1.2.2.1, h.2.1.2.2.2.2, h.2.2.2.2.2.2⟩

/-! ### Cross-rank halo consistency (C1) -/

/-- A loop whose guard never skips is a plain `map`. -/
theorem filterMap_all_some {α : Type} (n : ℕ) (g : ℕ → Option α) (f : ℕ → α)
    (h : ∀ i, g i = some (f i)) :
    (List.range n).filterMap g = (List.range n).map f := by
  have hg : g = some ∘ f := funext h
  rw [hg, List.filterMap_eq_map]

/-- C1: on a 2×2 processor grid over a rect mesh whose global zone counts
`2a × 2b` are evenly divided (each rank gets `a × b` zones), the "master
points with slave to right" list of the rank at proc index `(0,0)` (color
0) and the "slaved points with master to left" list of the rank at proc
index `(1,0)` (color 1) have the same length, and position for position the
two local indices map to the same value under each rank's
`pointLocalToGlobalIDRect`. -/
theorem c1_cross_rank_halo_consistency (a b : ℕ) (ha : 1 ≤ a) (hb : 1 ≤ b) :
    (rectMasterRightSeg ⟨2 * a, 2 * b, 4, 2, 2, 0⟩).length =
      (rectSlaveLeftSeg ⟨2 * a, 2 * b, 4, 2, 2, 1⟩).length ∧
    (rectMasterRightSeg ⟨2 * a, 2 * b, 4, 2, 2, 0⟩).map
        (pointLocalToGlobalIDRect ⟨2 * a, 2 * b, 4, 2, 2, 0⟩) =
      (rectSlaveLeftSeg ⟨2 * a, 2 * b, 4, 2, 2, 1⟩).map
        (pointLocalToGlobalIDRect ⟨2 * a, 2 * b, 4, 2, 2, 1⟩) := by
  set c0 : GenConfig := ⟨2 * a, 2 * b, 4, 2, 2, 0⟩ with hc0
  set c1 : GenConfig := ⟨2 * a, 2 * b, 4, 2, 2, 1⟩ with hc1
  have d1 : 2 * a / 2 = a := Nat.mul_div_cancel_left a (by norm_num)
  have d2 : 2 * (2 * a) / 2 = 2 * a := Nat.mul_div_cancel_left (2 * a) (by norm_num)
  have d3 : 2 * b / 2 = b := Nat.mul_div_cancel_left b (by norm_num)
  have hnz0x : nzones_x c0 = a := by
    show (0 % 2 + 1) * (2 * a) / 2 - 0 % 2 * (2 * a) / 2 = a
    norm_num [d1]
  have hnz0y : nzones_y c0 = b := by
    show (0 / 2 + 1) * (2 * b) / 2 - 0 / 2 * (2 * b) / 2 = b
    norm_num [d3]
  have hnz1x : nzones_x c1 = a := by
    show (1 % 2 + 1) * (2 * a) / 2 - 1 % 2 * (2 * a) / 2 = a
    norm_num [d1, d2]
    omega
  have hnz1y : nzones_y c1 = b := by
    show (1 / 2 + 1) * (2 * b) / 2 - 1 / 2 * (2 * b) / 2 = b
    norm_num [d3]
  have hp0x : num_points_x c0 = a + 1 := by rw [num_points_x, hnz0x]
  have hp0y : num_points_y c0 = b + 1 := by rw [num_points_y, hnz0y]
  have hp1x : num_points_x c1 = a + 1 := by rw [num_points_x, hnz1x]
  have hp1y : num_points_y c1 = b + 1 := by rw [num_points_y, hnz1y]
  have hzy0 : zone_y_offset c0 = 0 := by
    show 0 / 2 * (2 * b) / 2 = 0
    norm_num
  have hzy1 : zone_y_offset c1 = 0 := by
    show 1 / 2 * (2 * b) / 2 = 0
    norm_num
  have hzx0 : zone_x_offset c0 = 0 := by
    show 0 % 2 * (2 * a) / 2 = 0
    norm_num
  have hzx1 : zone_x_offset c1 = a := by
    show 1 % 2 * (2 * a) / 2 = a
    norm_num [d1]
  have hpy0 : proc_index_y c0 = 0 := by show 0 / 2 = 0; rfl
  have hpy1 : proc_index_y c1 = 0 := by show 1 / 2 = 0; rfl
  have hseg0 : rectMasterRightSeg c0 =
      (List.range (b + 1)).map (fun j => perm c0 (a + j * (a + 1))) := by
    rw [rectMasterRightSeg, hp0y]
    refine filterMap_all_some (b + 1) _ _ (fun j => ?_)
    rw [if_neg (by rintro ⟨_, hne⟩; exact hne hpy0), hp0x, Nat.add_sub_cancel]
  have hseg1 : rectSlaveLeftSeg c1 =
      (List.range (b + 1)).map (fun j => perm c1 (j * (a + 1))) := by
    rw [rectSlaveLeftSeg, hp1y]
    refine filterMap_all_some (b + 1) _ _ (fun j => ?_)
    rw [if_neg (by rintro ⟨_, hne⟩; exact hne hpy1), hp1x]
  have hdep0 := (perm_bijection c0 (by omega) (by omega)).2.2.2.1
  have hdep1 := (perm_bijection c1 (by omega) (by omega)).2.2.2.1
  rw [hp0x, hp0y] at hdep0
  rw [hp1x, hp1y] at hdep1
  have hmulbound : ∀ j, j < b + 1 → j * (a + 1) ≤ b * (a + 1) :=
    fun j hj => Nat.mul_le_mul_right _ (by omega)
  have hexp : (a + 1) * (b + 1) = b * (a + 1) + (a + 1) := by ring
  refine ⟨?_, ?_⟩
  · rw [hseg0, hseg1, List.length_map, List.length_map]
  · rw [hseg0, hseg1, List.map_map, List.map_map]
    refine List.map_congr_left (fun j hj => ?_)
    rw [List.mem_range] at hj
    have hb0 : a + j * (a + 1) < (a + 1) * (b + 1) := by
      have := hmulbound j hj
      omega
    have hb1 : j * (a + 1) < (a + 1) * (b + 1) := by
      have := hmulbound j hj
      omega
    have hd0 := hdep0 (a + j * (a + 1)) hb0
    have hd1 := hdep1 (j * (a + 1)) hb1
    have hdiv0 : (a + j * (a + 1)) / (a + 1) = j := by
      rw [Nat.add_mul_div_right _ _ (by omega), Nat.div_eq_of_lt (by omega),
        Nat.zero_add]
    have hdiv1 : j * (a + 1) / (a + 1) = j := Nat.mul_div_cancel j (by omega)
    show pointLocalToGlobalIDRect c0 (perm c0 (a + j * (a + 1))) =
      pointLocalToGlobalIDRect c1 (perm c1 (j * (a + 1)))
    simp only [pointLocalToGlobalIDRect]
    rw [hd0, hd1, hp0x, hp1x, hdiv0, hdiv1, hzy0, hzy1, hzx0, hzx1]
    rw [show global_perm c1 = global_perm c0 from rfl]
    rw [show (2 * a + 1) * (j + 0) + (a + j * (a + 1) - j * (a + 1)) + 0 =
        (2 * a + 1) * (j + 0) + (j * (a + 1) - j * (a + 1)) + a by omega]

/-- Witness for C1 at `a = b = 1` (4 ranks on 2×2 global zones). -/
theorem c1_cross_rank_halo_consistency_witness :
    ((1 : ℕ) ≤ 1 ∧ (1 : ℕ) ≤ 1) ∧
    ((rectMasterRightSeg ⟨2 * 1, 2 * 1, 4, 2, 2, 0⟩).length =
       (rectSlaveLeftSeg ⟨2 * 1, 2 * 1, 4, 2, 2, 1⟩).length ∧
     (rectMasterRightSeg ⟨2 * 1, 2 * 1, 4, 2, 2, 0⟩).map
         (pointLocalToGlobalIDRect ⟨2 * 1, 2 * 1, 4, 2, 2, 0⟩) =
       (rectSlaveLeftSeg ⟨2 * 1, 2 * 1, 4, 2, 2, 1⟩).map
         (pointLocalToGlobalIDRect ⟨2 * 1, 2 * 1, 4, 2, 2, 1⟩)) :=
  ⟨⟨le_rfl, le_rfl⟩, c1_cross_rank_halo_consistency 1 1 le_rfl le_rfl⟩

end PennantGen
